import Mathlib

/-!
# size_cmp: size-expression parser and directory size filter

A shallow embedding of `vql/functions/size_cmp.go`.

* Go strings that are parsed are lists of Unicode code points (`List Char`):
  the byte offset returned by `strings.IndexFunc` always lies on a code-point
  boundary, so slicing at it is splitting the list.
* The Go standard library is not part of the repository.  Its behaviour on
  ASCII is fixed by the definitions below; the Unicode tables beyond ASCII and
  the platform-dependent result of an out-of-range float-to-integer
  conversion are fields of `Runtime`.
* `float64` values are kept exactly, as sign, mantissa and binary exponent.
* The file system is the pair of `os.Stat` and the sequence of callbacks that
  `filepath.Walk` makes.
-/

namespace SizeCmp

/-! ## The Go runtime and standard library -/

/-- The parts of the Go runtime that the repository does not contain: the
Unicode tables beyond ASCII, and the value of `int64(f)` for a float `f`
outside the `int64` range (the language leaves it to the implementation). -/
structure Runtime where
  /-- Table `unicode.Letter` on code points from 0x80 on. -/
  letterTable : Char → Bool
  /-- Table `unicode.White_Space` on code points from 0x80 on. -/
  spaceTable : Char → Bool
  /-- Upper-case mapping of `unicode.CaseRanges` on code points from 0x80 on. -/
  upperTable : Char → Char
  /-- Lower-case mapping of `unicode.CaseRanges` on code points from 0x80 on. -/
  lowerTable : Char → Char
  /-- Value of `int64(f)` when `f = mant * 2 ^ exp` is `2 ^ 63` or more. -/
  int64OutOfRange : Nat → Int → Int

/-- The letters of ASCII, `A` to `Z` and `a` to `z`. -/
def asciiIsLetter (c : Char) : Bool :=
  (65 ≤ c.toNat && c.toNat ≤ 90) || (97 ≤ c.toNat && c.toNat ≤ 122)

/-- The white space of ASCII: tab, line feed, vertical tab, form feed,
carriage return and space. -/
def asciiIsSpace (c : Char) : Bool :=
  (9 ≤ c.toNat && c.toNat ≤ 13) || c.toNat = 32

/-- Upper-casing within ASCII. -/
def asciiToUpper (c : Char) : Char :=
  if 97 ≤ c.toNat && c.toNat ≤ 122 then Char.ofNat (c.toNat - 32) else c

/-- Lower-casing within ASCII. -/
def asciiToLower (c : Char) : Char :=
  if 65 ≤ c.toNat && c.toNat ≤ 90 then Char.ofNat (c.toNat + 32) else c

/-- Go `unicode.IsLetter`. -/
def IsLetter (R : Runtime) (c : Char) : Bool :=
  if c.toNat < 128 then asciiIsLetter c else R.letterTable c

/-- Go `unicode.IsSpace`. -/
def IsSpace (R : Runtime) (c : Char) : Bool :=
  if c.toNat < 128 then asciiIsSpace c else R.spaceTable c

/-- Go `unicode.ToUpper`. -/
def toUpperRune (R : Runtime) (c : Char) : Char :=
  if c.toNat < 128 then asciiToUpper c else R.upperTable c

/-- Go `unicode.ToLower`. -/
def toLowerRune (R : Runtime) (c : Char) : Char :=
  if c.toNat < 128 then asciiToLower c else R.lowerTable c

/-- Go `strings.TrimSpace`: drops the leading and the trailing white space. -/
def TrimSpace (R : Runtime) (s : List Char) : List Char :=
  ((s.dropWhile (IsSpace R)).reverse.dropWhile (IsSpace R)).reverse

/-- Go `strings.ToUpper`: maps every code point with `unicode.ToUpper`. -/
def ToUpper (R : Runtime) (s : List Char) : List Char :=
  s.map (toUpperRune R)

/-- Go `strings.ToLower`: maps every code point with `unicode.ToLower`. -/
def ToLower (R : Runtime) (s : List Char) : List Char :=
  s.map (toLowerRune R)

/-- Go `strings.IndexFunc`: the index of the first code point satisfying `f`,
or `-1` when there is none. -/
def IndexFunc (s : List Char) (f : Char → Bool) : Int :=
  match s with
  | [] => -1
  | c :: cs =>
    if f c then 0
    else
      let i := IndexFunc cs f
      if i = -1 then -1 else i + 1

/-! ### float64 -/

/-- A finite `float64`, kept exactly: the value is `± mant * 2 ^ exp`. -/
structure F64 where
  neg : Bool
  mant : Nat
  exp : Int
  deriving DecidableEq, Repr

/-- The comparison `f < 0` of Go; negative zero is not below zero. -/
def F64.ltZero (f : F64) : Bool :=
  f.neg && f.mant != 0

/-- The product `f * c` of Go for a constant `c` that is a power of two, as
`BYTE` .. `EXABYTE` are.  Scaling a `float64` up by a power of two is exact;
when the product passes the largest finite value it is `+Inf`, and the value
kept here is then at least `2 ^ 1024`. -/
def F64.mul (f : F64) (c : Nat) : F64 :=
  { f with mant := f.mant * c }

/-- The integer part of `mant * 2 ^ exp`. -/
def truncPow2 (mant : Nat) (exp : Int) : Nat :=
  if 0 ≤ exp then mant * 2 ^ exp.toNat else mant / 2 ^ (-exp).toNat

/-- Go conversion `int64(f)` of a float that is not below zero: truncation,
and the implementation's value when the integer part does not fit. -/
def F64.toInt64 (R : Runtime) (f : F64) : Int :=
  let t := truncPow2 f.mant f.exp
  if t < 2 ^ 63 then (t : Int) else R.int64OutOfRange f.mant f.exp

/-- The test `2 ^ c ≤ n / d`. -/
def pow2Le (c : Int) (n d : Nat) : Bool :=
  if 0 ≤ c then decide (d * 2 ^ c.toNat ≤ n) else decide (d ≤ n * 2 ^ (-c).toNat)

/-- Halving loop of `log2`; `fuel` bounds the number of halvings. -/
def log2Loop : Nat → Nat → Nat
  | 0, _ => 0
  | fuel + 1, n => if 2 ≤ n then log2Loop fuel (n / 2) + 1 else 0

/-- For positive `n`, the number `k` with `2 ^ k ≤ n < 2 ^ (k + 1)`. -/
def log2 (n : Nat) : Nat := log2Loop n n

/-- For positive `n` and `d`, the integer `k` with `2 ^ k ≤ n / d < 2 ^ (k + 1)`. -/
def ilog2 (n d : Nat) : Int :=
  let c : Int := (log2 n : Int) - (log2 d : Int)
  if pow2Le c n d then c else c - 1

/-- The integer nearest to `p / q`, a tie going to the even one. -/
def roundHalfEven (p q : Nat) : Nat :=
  let d := p / q
  let r := p % q
  if 2 * r < q then d
  else if q < 2 * r then d + 1
  else if d % 2 = 0 then d else d + 1

/-- IEEE 754 rounding of the non-negative rational `n / d` to `float64`
(53 bits of mantissa, least exponent `-1074`, round to nearest, ties to even):
the mantissa and exponent of the result, or `none` when the rounded value is
`2 ^ 1024` or more (out of range). -/
def roundF64 (n d : Nat) : Option (Nat × Int) :=
  if n = 0 then some (0, 0)
  else
    let e : Int := max (ilog2 n d - 52) (-1074)
    let m : Nat :=
      if 0 ≤ e then roundHalfEven n (d * 2 ^ e.toNat)
      else roundHalfEven (n * 2 ^ (-e).toNat) d
    if 0 ≤ e ∧ 2 ^ 1024 ≤ m * 2 ^ e.toNat then none else some (m, e)

/-- State of the scan of `readFloat` in `strconv`: whether a point and whether
a digit were seen, the digits read so far as a number, and how many of them
follow the point. -/
structure Scan where
  sawdot : Bool
  sawdigits : Bool
  digits : Nat
  frac : Nat
  deriving DecidableEq, Repr

/-- The scanning loop of `readFloat` on a decimal mantissa: underscores are
skipped, one point is allowed, digits accumulate.  Any other character ends
the number before the end of the string, which `ParseFloat` rejects. -/
def scanMantissa (st : Scan) : List Char → Option Scan
  | [] => some st
  | c :: cs =>
    if c = '_' then scanMantissa st cs
    else if c = '.' then
      if st.sawdot then none else scanMantissa { st with sawdot := true } cs
    else if 48 ≤ c.toNat ∧ c.toNat ≤ 57 then
      scanMantissa
        { st with
          sawdigits := true
          digits := st.digits * 10 + (c.toNat - 48)
          frac := if st.sawdot then st.frac + 1 else st.frac } cs
    else none

/-- Loop of `underscoreOK` in `strconv` on a decimal number: `saw` is the
class of the last character, `'0'` for a digit, `'_'` for an underscore,
`'^'` at the start and `'!'` otherwise.  An underscore must follow a digit and
be followed by one. -/
def underscoreLoop (saw : Char) : List Char → Bool
  | [] => saw != '_'
  | c :: cs =>
    if 48 ≤ c.toNat ∧ c.toNat ≤ 57 then underscoreLoop '0' cs
    else if c = '_' then
      if saw != '0' then false else underscoreLoop '_' cs
    else if saw = '_' then false
    else underscoreLoop '!' cs

/-- Go `strconv.ParseFloat(s, 64)` on a string without letters, the only kind
`sizeByte` passes to it: an optional sign, then decimal digits with at most
one point and at least one digit, underscores only between digits.  (The
exponent, the hexadecimal form and the names of infinity and NaN all need a
letter; on a string with a letter this function answers `none`.)  The result
is `none` when Go returns an error, for a malformed number as for one out of
range, else the nearest `float64`. -/
def ParseFloat (s : List Char) : Option F64 :=
  let neg := s.head? = some '-'
  let body := if s.head? = some '-' ∨ s.head? = some '+' then s.tail else s
  match scanMantissa ⟨false, false, 0, 0⟩ body with
  | none => none
  | some st =>
    if !st.sawdigits then none
    else if !underscoreLoop '^' body then none
    else
      match roundF64 st.digits (10 ^ st.frac) with
      | none => none
      | some (m, e) => some ⟨neg, m, e⟩

/-! ## The size parser -/

/-- Go `getOperators`. -/
def getOperators : List String :=
  ["eq", "le", "ge", "gt", "lt"]

/-- Go `BYTE = 1 << (10 * iota)` with `iota = 0`. -/
def BYTE : Nat := 1 <<< (10 * 0)

/-- Go `KILOBYTE`, the same expression with `iota = 1`. -/
def KILOBYTE : Nat := 1 <<< (10 * 1)

/-- Go `MEGABYTE`, the same expression with `iota = 2`. -/
def MEGABYTE : Nat := 1 <<< (10 * 2)

/-- Go `GIGABYTE`, the same expression with `iota = 3`. -/
def GIGABYTE : Nat := 1 <<< (10 * 3)

/-- Go `TERABYTE`, the same expression with `iota = 4`. -/
def TERABYTE : Nat := 1 <<< (10 * 4)

/-- Go `PETABYTE`, the same expression with `iota = 5`. -/
def PETABYTE : Nat := 1 <<< (10 * 5)

/-- Go `EXABYTE`, the same expression with `iota = 6`. -/
def EXABYTE : Nat := 1 <<< (10 * 6)

/-- Go `sizeByte`: the pair of the returned `int64` and the returned error
(`none` for `nil`). -/
def sizeByte (R : Runtime) (strSize : List Char) : Int × Option String :=
  let strSize := TrimSpace R strSize
  let strSize := ToUpper R strSize
  let i := IndexFunc strSize (IsLetter R)
  if i = -1 then (0, none)
  else
    let bytesString := strSize.take i.toNat
    let multiple := strSize.drop i.toNat
    match ParseFloat bytesString with
    | none => (0, some "size must be a postive integer")
    | some bytes =>
      if bytes.ltZero then (0, some "size must be a postive integer")
      else if multiple = "E".toList ∨ multiple = "EB".toList ∨ multiple = "EIB".toList then
        ((bytes.mul EXABYTE).toInt64 R, none)
      else if multiple = "P".toList ∨ multiple = "PB".toList ∨ multiple = "PIB".toList then
        ((bytes.mul PETABYTE).toInt64 R, none)
      else if multiple = "T".toList ∨ multiple = "TB".toList ∨ multiple = "TIB".toList then
        ((bytes.mul TERABYTE).toInt64 R, none)
      else if multiple = "G".toList ∨ multiple = "GB".toList ∨ multiple = "GIB".toList then
        ((bytes.mul GIGABYTE).toInt64 R, none)
      else if multiple = "M".toList ∨ multiple = "MB".toList ∨ multiple = "MIB".toList then
        ((bytes.mul MEGABYTE).toInt64 R, none)
      else if multiple = "K".toList ∨ multiple = "KB".toList ∨ multiple = "KIB".toList then
        ((bytes.mul KILOBYTE).toInt64 R, none)
      else if multiple = "B".toList then
        (bytes.toInt64 R, none)
      else (0, some "size must be a positive integer")

/-! ## The directory filter -/

/-- Go `SizeCmpArgs`. -/
structure SizeCmpArgs where
  Path : String
  Size : String
  Operator : String
  deriving DecidableEq, Repr

/-- What the walk callback reads of an `os.FileInfo`: `Name()`, `Size()`,
`IsDir()`, `Mode().IsRegular()` and the text of `Mode()`. -/
structure FileInfo where
  Name : String
  Size : Int
  IsDir : Bool
  IsRegular : Bool
  ModeString : String
  deriving DecidableEq, Repr

/-- One call of the callback by `filepath.Walk`: the full path of the entry,
its `FileInfo` and the error met on the way to it (`none` for `nil`).  When
the error is set the `FileInfo` may be nil in Go; the callback does not look
at it then. -/
structure Visit where
  path : String
  info : FileInfo
  err : Option String
  deriving DecidableEq, Repr

/-- The file system as `Call` sees it: `os.Stat`, and for a root the calls
that `filepath.Walk` makes to a callback that keeps returning `nil`. -/
structure FileSystem where
  Stat : String → Except String FileInfo
  walk : String → List Visit

/-- What the callback of `Call` can change: the captured variable `fileList`
and the lines written with `scope.Log`. -/
structure WalkState where
  fileList : List String
  log : List String
  deriving DecidableEq, Repr

/-- Go `fmt.Sprintf("size_cmp(%s,%s,%s): %s", p, s, o, msg)`. -/
def logLine (p s o msg : String) : String :=
  "size_cmp(" ++ p ++ "," ++ s ++ "," ++ o ++ "): " ++ msg

/-- The function literal passed to `filepath.Walk` in `Call`: the new state
and the returned error (`none` for `nil`). -/
def walkFn (myArgs : SizeCmpArgs) (size : Int) (st : WalkState) (v : Visit) :
    WalkState × Option String :=
  match v.err with
  | some e =>
    ({ st with log := st.log ++ [logLine myArgs.Path myArgs.Size myArgs.Operator e] }, none)
  | none =>
    if !v.info.IsDir then
      if !v.info.IsRegular then
        ({ fileList := st.fileList ++ [v.info.Name]
           log := st.log ++ [logLine myArgs.Path myArgs.Size myArgs.Operator
             (v.info.Name ++ " is " ++ v.info.ModeString)] }, none)
      else if myArgs.Operator = "eq" then
        (if v.info.Size = size then { st with fileList := st.fileList ++ [v.info.Name] } else st,
          none)
      else if myArgs.Operator = "lt" then
        (if v.info.Size < size then { st with fileList := st.fileList ++ [v.info.Name] } else st,
          none)
      else if myArgs.Operator = "gt" then
        (if v.info.Size > size then { st with fileList := st.fileList ++ [v.info.Name] } else st,
          none)
      else if myArgs.Operator = "le" then
        (if v.info.Size ≤ size then { st with fileList := st.fileList ++ [v.info.Name] } else st,
          none)
      else if myArgs.Operator = "ge" then
        (if v.info.Size ≥ size then { st with fileList := st.fileList ++ [v.info.Name] } else st,
          none)
      else (st, none)
    else (st, none)

/-- Go `filepath.Walk` over the entries `visits`: the callback is called at
each entry in turn for as long as it returns `nil`; the first other return
value ends the walk and is returned. -/
def Walk (fn : WalkState → Visit → WalkState × Option String) :
    List Visit → WalkState → WalkState × Option String
  | [], st => (st, none)
  | v :: vs, st =>
    match fn st v with
    | (st1, none) => Walk fn vs st1
    | (st1, some e) => (st1, some e)

/-- A value of type `vfilter.Any` as `Call` can return it. -/
inductive Any where
  | nil
  | string (s : String)
  | strings (l : List String)
  deriving DecidableEq, Repr

/-- The walk of `Call` from `var fileList []string` on: the state in which
`filepath.Walk` returns, given the lines logged before. -/
def walkTree (fs : FileSystem) (myArgs : SizeCmpArgs) (size : Int) (log : List String) :
    WalkState :=
  (Walk (walkFn myArgs size) (fs.walk myArgs.Path) { fileList := [], log := log }).1

/-- Go `SizeCmpFunction.Call`.  `myArgs` and `err` are what
`arg_parser.ExtractArgsWithContext` leaves; the result is the returned value
and the lines written with `scope.Log`. -/
def SizeCmpFunction.Call (R : Runtime) (fs : FileSystem) (myArgs : SizeCmpArgs)
    (err : Option String) : Any × List String :=
  match err with
  | some e => (Any.nil, [logLine myArgs.Path myArgs.Size myArgs.Operator e])
  | none =>
    let myArgs := if myArgs.Operator = "" then { myArgs with Operator := "eq" } else myArgs
    let myArgs := if myArgs.Size = "" then { myArgs with Size := "0" } else myArgs
    let opValid := getOperators.foldl (fun valid op => if op = myArgs.Operator then true else valid)
      false
    if !opValid then
      (Any.nil, [logLine myArgs.Path myArgs.Size myArgs.Operator
        ("invalid operator " ++ myArgs.Operator)])
    else
      match fs.Stat myArgs.Path with
      | .error e => (Any.nil, [logLine myArgs.Path myArgs.Size myArgs.Operator e])
      | .ok stat =>
        if !stat.IsDir then
          (Any.nil, [logLine myArgs.Path myArgs.Size myArgs.Operator "is not a directory"])
        else
          match sizeByte R myArgs.Size.toList with
          | (_, some e) =>
            (Any.nil, ["size_cmp(" ++ myArgs.Path ++ "," ++ myArgs.Size ++ "," ++ e
              ++ "): %!s(MISSING)"])
          | (size, none) =>
            let st := walkTree fs myArgs size []
            (Any.string "foo", st.log)

/-- The five comparisons of the specification: `eq` is `size == threshold`,
`lt` is `<`, `gt` is `>`, `le` is `<=`, `ge` is `>=`; no other operator
selects anything. -/
def comparisonHolds (operator : String) (size threshold : Int) : Bool :=
  if operator = "eq" then decide (size = threshold)
  else if operator = "lt" then decide (size < threshold)
  else if operator = "gt" then decide (size > threshold)
  else if operator = "le" then decide (size ≤ threshold)
  else if operator = "ge" then decide (size ≥ threshold)
  else false

/-- The inclusion rule of the specification for a visited entry: it was
reached without error, it is not a directory, and it is either irregular or a
regular file whose size stands in the selected relation to the threshold. -/
def included (operator : String) (threshold : Int) (v : Visit) : Bool :=
  v.err.isNone && !v.info.IsDir &&
    (!v.info.IsRegular || comparisonHolds operator v.info.Size threshold)

/-- A visit of a regular file. -/
def regularFile (path name : String) (size : Int) (mode : String) : Visit :=
  { path := path
    info := { Name := name, Size := size, IsDir := false, IsRegular := true, ModeString := mode }
    err := none }

/-- A visit of an entry that is neither a directory nor a regular file. -/
def irregularEntry (path name : String) (size : Int) (mode : String) : Visit :=
  { path := path
    info := { Name := name, Size := size, IsDir := false, IsRegular := false, ModeString := mode }
    err := none }

/-- A visit of a directory that could be read. -/
def directory (path name : String) (size : Int) (mode : String) : Visit :=
  { path := path
    info := { Name := name, Size := size, IsDir := true, IsRegular := false, ModeString := mode }
    err := none }

/-- A file system with a single directory tree: every path is a directory for
`os.Stat`, and the walk of every root makes the calls `visits`. -/
def singleTree (visits : List Visit) : FileSystem :=
  { Stat := fun p =>
      .ok { Name := p, Size := 4096, IsDir := true, IsRegular := false, ModeString := "drwxr-xr-x" }
    walk := fun _ => visits }

/-- A directory `/data` holding regular files of 0, 1024, 2048 and 5000 bytes. -/
def fourFiles : List Visit :=
  [ directory "/data" "data" 4096 "drwxr-xr-x",
    regularFile "/data/a" "a" 0 "-rw-r--r--",
    regularFile "/data/b" "b" 1024 "-rw-r--r--",
    regularFile "/data/c" "c" 2048 "-rw-r--r--",
    regularFile "/data/d" "d" 5000 "-rw-r--r--" ]

/-- A directory `/data` holding a symbolic link and a regular file of 10 bytes. -/
def linkAndFile : List Visit :=
  [ directory "/data" "data" 4096 "drwxr-xr-x",
    irregularEntry "/data/l" "l" 7 "Lrwxrwxrwx",
    regularFile "/data/r" "r" 10 "-rw-r--r--" ]

/-- A runtime whose tables hold nothing beyond ASCII and whose out-of-range
conversion gives the least `int64`, as on amd64. -/
def asciiRuntime : Runtime :=
  { letterTable := fun _ => false
    spaceTable := fun _ => false
    upperTable := fun c => c
    lowerTable := fun c => c
    int64OutOfRange := fun _ _ => -(2 ^ 63) }

/-- Whether a visit is that of a regular file reached without error. -/
def isRegularVisit (v : Visit) : Bool :=
  v.err.isNone && !v.info.IsDir && v.info.IsRegular

/-- The base names of the regular files among the visits made without error:
the regular files that the walk reached.  (The regular files of a whole tree
are `treeRegularNames`.) -/
def regularNames (visits : List Visit) : List String :=
  (visits.filter isRegularVisit).map (fun v => v.info.Name)

/-! ## Auxiliary definitions for the size parser -/

/-- The `switch multiple` statement of `sizeByte` as a function of the parsed
number and of the suffix. -/
def switchMultiple (R : Runtime) (bytes : F64) (multiple : List Char) : Int × Option String :=
  if multiple = "E".toList ∨ multiple = "EB".toList ∨ multiple = "EIB".toList then
    ((bytes.mul EXABYTE).toInt64 R, none)
  else if multiple = "P".toList ∨ multiple = "PB".toList ∨ multiple = "PIB".toList then
    ((bytes.mul PETABYTE).toInt64 R, none)
  else if multiple = "T".toList ∨ multiple = "TB".toList ∨ multiple = "TIB".toList then
    ((bytes.mul TERABYTE).toInt64 R, none)
  else if multiple = "G".toList ∨ multiple = "GB".toList ∨ multiple = "GIB".toList then
    ((bytes.mul GIGABYTE).toInt64 R, none)
  else if multiple = "M".toList ∨ multiple = "MB".toList ∨ multiple = "MIB".toList then
    ((bytes.mul MEGABYTE).toInt64 R, none)
  else if multiple = "K".toList ∨ multiple = "KB".toList ∨ multiple = "KIB".toList then
    ((bytes.mul KILOBYTE).toInt64 R, none)
  else if multiple = "B".toList then
    (bytes.toInt64 R, none)
  else (0, some "size must be a positive integer")

/-- The input of `sizeByte` after `TrimSpace` and `ToUpper`. -/
def normalized (R : Runtime) (strSize : List Char) : List Char :=
  ToUpper R (TrimSpace R strSize)

/-- The text before the first letter of the normalised input: `bytesString`. -/
def bytesText (R : Runtime) (strSize : List Char) : List Char :=
  (normalized R strSize).take (IndexFunc (normalized R strSize) (IsLetter R)).toNat

/-- The text from the first letter of the normalised input on: `multiple`. -/
def multipleText (R : Runtime) (strSize : List Char) : List Char :=
  (normalized R strSize).drop (IndexFunc (normalized R strSize) (IsLetter R)).toNat

/-- The nineteen unit spellings of the specification with the power of 1024
that each stands for. -/
def unitTable : List (List Char × Nat) :=
  [ ("B".toList, 0),
    ("K".toList, 1), ("KB".toList, 1), ("KIB".toList, 1),
    ("M".toList, 2), ("MB".toList, 2), ("MIB".toList, 2),
    ("G".toList, 3), ("GB".toList, 3), ("GIB".toList, 3),
    ("T".toList, 4), ("TB".toList, 4), ("TIB".toList, 4),
    ("P".toList, 5), ("PB".toList, 5), ("PIB".toList, 5),
    ("E".toList, 6), ("EB".toList, 6), ("EIB".toList, 6) ]

/-- The nineteen unit spellings. -/
def unitSpellings : List (List Char) :=
  unitTable.map Prod.fst

/-- A runtime with the entries of the Go tables for two code points.  U+0345
(COMBINING GREEK YPOGEGRAMMENI) has the general category Mn, so it is absent
from `unicode.Letter`, and its entry in `unicode.CaseRanges` has the upper-case
delta 84, which leads to U+0399.  U+0399 (GREEK CAPITAL LETTER IOTA) has the
category Lu and is in `unicode.Letter`. -/
def greekRuntime : Runtime :=
  { letterTable := fun c => c.toNat = 0x399
    spaceTable := fun _ => false
    upperTable := fun c => if c.toNat = 0x345 then Char.ofNat 0x399 else c
    lowerTable := fun c => c
    int64OutOfRange := fun _ _ => -(2 ^ 63) }

/-- The character of a decimal digit. -/
def digitChar (d : Fin 10) : Char := Char.ofNat (48 + d.val)

/-- The number written by a sequence of decimal digits. -/
def digitsValue (ds : List (Fin 10)) : Nat :=
  ds.foldl (fun a d => a * 10 + d.val) 0

/-- The text of a decimal magnitude with integer digits `ip` and fraction
digits `fp`: the digits of `ip`, then, when there is a fraction, a point and
the digits of `fp`.  Its value is `digitsValue (ip ++ fp) / 10 ^ fp.length`. -/
def decimalText (ip fp : List (Fin 10)) : List Char :=
  ip.map digitChar ++ (if fp = [] then [] else '.' :: fp.map digitChar)

/-! ## Auxiliary definitions for the call -/

/-- The arguments of `Call` after its two defaults: an empty operator becomes
`eq` and an empty size becomes `0`. -/
def withDefaults (myArgs : SizeCmpArgs) : SizeCmpArgs :=
  let myArgs := if myArgs.Operator = "" then { myArgs with Operator := "eq" } else myArgs
  if myArgs.Size = "" then { myArgs with Size := "0" } else myArgs

/-- The value of the variable `fileList` when `Call` reaches its last
statement, and `none` when `Call` returns before the walk. -/
def callFileList (R : Runtime) (fs : FileSystem) (myArgs : SizeCmpArgs)
    (err : Option String) : Option (List String) :=
  match err with
  | some _ => none
  | none =>
    let myArgs := if myArgs.Operator = "" then { myArgs with Operator := "eq" } else myArgs
    let myArgs := if myArgs.Size = "" then { myArgs with Size := "0" } else myArgs
    let opValid := getOperators.foldl (fun valid op => if op = myArgs.Operator then true else valid)
      false
    if !opValid then none
    else
      match fs.Stat myArgs.Path with
      | .error _ => none
      | .ok stat =>
        if !stat.IsDir then none
        else
          match sizeByte R myArgs.Size.toList with
          | (_, some _) => none
          | (size, none) => some (walkTree fs myArgs size []).fileList

/-- A file system in which `os.Stat` fails on every path. -/
def noSuchPath : FileSystem :=
  { Stat := fun p => .error ("stat " ++ p ++ ": no such file or directory")
    walk := fun _ => [] }

/-- A file system in which every path is a regular file of 10 bytes. -/
def plainFile : FileSystem :=
  { Stat := fun p =>
      .ok { Name := p, Size := 10, IsDir := false, IsRegular := true, ModeString := "-rw-r--r--" }
    walk := fun p => [regularFile p p 10 "-rw-r--r--"] }

/-! ## Directory trees -/

/-- An entry of a directory tree: its full path, its `FileInfo`, the error of
`os.Lstat` on it and, for a directory, the error of reading its listing
(`none` when the call succeeds). -/
structure Node where
  path : String
  info : FileInfo
  lstatErr : Option String
  readErr : Option String
  deriving DecidableEq, Repr

/-- A directory tree as a listing: `nil` ends a listing, and
`entry node below next` is the entry `node`, followed by the rest `next` of
the listing it stands in; `below` is the listing of `node` when `node` is a
directory.  A tree with root `r` is `entry r below nil`. -/
inductive Tree where
  | nil
  | entry (node : Node) (below : Tree) (next : Tree)
  deriving DecidableEq, Repr

/-- The calls that `filepath.Walk` makes on a tree to a callback that keeps
returning `nil`, in lexical order of the listings.  An entry on which
`os.Lstat` fails is reported with that error.  A file is reported.  A
directory is reported with the error of reading its listing, and the walk
goes through its listing only when there is none. -/
def treeVisits : Tree → List Visit
  | .nil => []
  | .entry node below next =>
    (match node.lstatErr with
      | some e => [{ path := node.path, info := node.info, err := some e }]
      | none =>
        if !node.info.IsDir then [{ path := node.path, info := node.info, err := none }]
        else
          match node.readErr with
          | some e => [{ path := node.path, info := node.info, err := some e }]
          | none => { path := node.path, info := node.info, err := none } :: treeVisits below)
      ++ treeVisits next

/-- All the entries of a tree, those that the walk cannot reach included. -/
def treeNodes : Tree → List Node
  | .nil => []
  | .entry node below next =>
    node :: (if node.info.IsDir then treeNodes below else []) ++ treeNodes next

/-- The base names of all the regular files in a tree. -/
def treeRegularNames (t : Tree) : List String :=
  ((treeNodes t).filter (fun n => !n.info.IsDir && n.info.IsRegular)).map (fun n => n.info.Name)

/-- Whether a tree holds no irregular entry: every entry is a directory or a
regular file. -/
def treeNoIrregular (t : Tree) : Bool :=
  (treeNodes t).all (fun n => n.info.IsDir || n.info.IsRegular)

/-- Whether every entry of a tree can be read: `os.Lstat` succeeds on every
entry and the listing of every directory can be read. -/
def treeReadable (t : Tree) : Bool :=
  (treeNodes t).all (fun n => n.lstatErr.isNone && n.readErr.isNone)

/-- A regular file that can be read. -/
def fileNode (path name : String) (size : Int) : Node :=
  { path := path
    info := { Name := name, Size := size, IsDir := false, IsRegular := true,
              ModeString := "-rw-r--r--" }
    lstatErr := none
    readErr := none }

/-- A directory; `readErr` is the error of reading its listing. -/
def dirNode (path name : String) (readErr : Option String) : Node :=
  { path := path
    info := { Name := name, Size := 4096, IsDir := true, IsRegular := false,
              ModeString := "drwxr-xr-x" }
    lstatErr := none
    readErr := readErr }

/-- A symbolic link. -/
def linkNode (path name : String) : Node :=
  { path := path
    info := { Name := name, Size := 7, IsDir := false, IsRegular := false,
              ModeString := "Lrwxrwxrwx" }
    lstatErr := none
    readErr := none }

/-- The tree `/data` with a symbolic link `l` and a regular file `r` of 10
bytes. -/
def linkTree : Tree :=
  .entry (dirNode "/data" "data" none)
    (.entry (linkNode "/data/l" "l") .nil
      (.entry (fileNode "/data/r" "r" 10) .nil .nil))
    .nil

/-- The tree `/data` with the directories `x` and `y`, each holding a regular
file `f`, of 0 bytes in `x` and of 5000 bytes in `y`. -/
def sameNameTree : Tree :=
  .entry (dirNode "/data" "data" none)
    (.entry (dirNode "/data/x" "x" none)
      (.entry (fileNode "/data/x/f" "f" 0) .nil .nil)
      (.entry (dirNode "/data/y" "y" none)
        (.entry (fileNode "/data/y/f" "f" 5000) .nil .nil)
        .nil))
    .nil

/-- The tree `/data` with a regular file `a` of 10 bytes and a directory
`locked` whose listing cannot be read and which holds a regular file `h` of
5000 bytes. -/
def lockedTree : Tree :=
  .entry (dirNode "/data" "data" none)
    (.entry (fileNode "/data/a" "a" 10) .nil
      (.entry (dirNode "/data/locked" "locked" (some "open /data/locked: permission denied"))
        (.entry (fileNode "/data/locked/h" "h" 5000) .nil .nil)
        .nil))
    .nil

/-- The tree `/data` with regular files `a`, `b`, `c`, `d` of 0, 1024, 2048
and 5000 bytes. -/
def fourFilesTree : Tree :=
  .entry (dirNode "/data" "data" none)
    (.entry (fileNode "/data/a" "a" 0) .nil
      (.entry (fileNode "/data/b" "b" 1024) .nil
        (.entry (fileNode "/data/c" "c" 2048) .nil
          (.entry (fileNode "/data/d" "d" 5000) .nil .nil))))
    .nil

/-- The visit of an entry that the walk reaches without error. -/
def Node.visit (n : Node) : Visit :=
  { path := n.path, info := n.info, err := none }

/-! ## The walk -/

theorem walkFn_snd (a : SizeCmpArgs) (size : Int) (st : WalkState) (v : Visit) :
    (walkFn a size st v).2 = none := by
  unfold walkFn
  repeat' split
  all_goals rfl

theorem walkFn_fileList (a : SizeCmpArgs) (size : Int) (st : WalkState) (v : Visit) :
    (walkFn a size st v).1.fileList =
      st.fileList ++ (if included a.Operator size v then [v.info.Name] else []) := by
  obtain ⟨path, ⟨name, sz, isDir, isReg, mode⟩, err⟩ := v
  cases err with
  | some e => simp [walkFn, included]
  | none =>
    cases isDir <;> cases isReg <;> simp [walkFn, included, comparisonHolds]
    by_cases h1 : a.Operator = "eq"
    · by_cases h : sz = size <;> simp [h1, h]
    by_cases h2 : a.Operator = "lt"
    · by_cases h : sz < size <;> simp [h2, h]
    by_cases h3 : a.Operator = "gt"
    · by_cases h : size < sz <;> simp [h3, h]
    by_cases h4 : a.Operator = "le"
    · by_cases h : sz ≤ size <;> simp [h4, h]
    by_cases h5 : a.Operator = "ge"
    · by_cases h : size ≤ sz <;> simp [h5, h]
    simp [h1, h2, h3, h4, h5]

theorem Walk_walkFn_snd (a : SizeCmpArgs) (size : Int) (vs : List Visit) (st : WalkState) :
    (Walk (walkFn a size) vs st).2 = none := by
  induction vs generalizing st with
  | nil => rfl
  | cons v vs ih =>
    have h := walkFn_snd a size st v
    rw [Walk]
    split
    · exact ih _
    · rename_i st1 e heq
      rw [heq] at h
      cases h

theorem Walk_walkFn_fileList (a : SizeCmpArgs) (size : Int) (vs : List Visit) (st : WalkState) :
    (Walk (walkFn a size) vs st).1.fileList =
      st.fileList ++ (vs.filter (included a.Operator size)).map (fun v => v.info.Name) := by
  induction vs generalizing st with
  | nil => simp [Walk]
  | cons v vs ih =>
    have h2 := walkFn_snd a size st v
    have h1 := walkFn_fileList a size st v
    rw [Walk]
    split
    · rename_i st1 heq
      rw [heq] at h1
      rw [ih, h1]
      by_cases hin : included a.Operator size v = true <;> simp [List.filter_cons, hin]
    · rename_i st1 e heq
      rw [heq] at h2
      cases h2

theorem walkTree_fileList (fs : FileSystem) (a : SizeCmpArgs) (size : Int) (log : List String) :
    (walkTree fs a size log).fileList =
      ((fs.walk a.Path).filter (included a.Operator size)).map (fun v => v.info.Name) := by
  simp [walkTree, Walk_walkFn_fileList]

/-! ## Claims on the walk -/

/-- C1 (the code departs from the claim): `Call` never returns the list that
the walk accumulated.  Whatever the arguments, it returns nil or the string
`foo`; on a directory with files of 0, 1024, 2048 and 5000 bytes, size `1K`
and operator `ge`, the walk accumulates the names `b`, `c`, `d` and the call
returns `foo`. -/
theorem C1_call_returns_foo :
    (∀ (R : Runtime) (fs : FileSystem) (myArgs : SizeCmpArgs) (err : Option String),
      (SizeCmpFunction.Call R fs myArgs err).1 = Any.nil ∨ (SizeCmpFunction.Call R fs myArgs err).1 = Any.string "foo") ∧
    sizeByte asciiRuntime "1K".toList = (1024, none) ∧
    (walkTree (singleTree fourFiles) ⟨"/data", "1K", "ge"⟩ 1024 []).fileList = ["b", "c", "d"] ∧
    (SizeCmpFunction.Call asciiRuntime (singleTree fourFiles) ⟨"/data", "1K", "ge"⟩ none).1 = Any.string "foo" := by
  refine ⟨?_, by decide, by decide, by decide⟩
  intro R fs myArgs err
  cases err with
  | some e => exact Or.inl rfl
  | none =>
    simp only [SizeCmpFunction.Call]
    split_ifs
    all_goals first
      | exact Or.inl rfl
      | (split
         · exact Or.inl rfl
         · (split_ifs
            · exact Or.inl rfl
            · (split
               · exact Or.inl rfl
               · exact Or.inr rfl)))

/-- C2: at a regular file of `size` bytes the callback appends the name of the
file exactly when the selected relation holds between `size` and the
threshold, and leaves the list alone otherwise; on files of 0, 1024, 2048 and
5000 bytes with threshold 1024, `eq` gives the 1024 file and `ge` the files of
1024, 2048 and 5000 bytes. -/
theorem C2_regular_file_comparison :
    (∀ (p s path name mode : String) (size threshold : Int) (st : WalkState),
      (walkFn ⟨p, s, "eq"⟩ threshold st (regularFile path name size mode)).1.fileList =
        (if size = threshold then st.fileList ++ [name] else st.fileList) ∧
      (walkFn ⟨p, s, "lt"⟩ threshold st (regularFile path name size mode)).1.fileList =
        (if size < threshold then st.fileList ++ [name] else st.fileList) ∧
      (walkFn ⟨p, s, "gt"⟩ threshold st (regularFile path name size mode)).1.fileList =
        (if size > threshold then st.fileList ++ [name] else st.fileList) ∧
      (walkFn ⟨p, s, "le"⟩ threshold st (regularFile path name size mode)).1.fileList =
        (if size ≤ threshold then st.fileList ++ [name] else st.fileList) ∧
      (walkFn ⟨p, s, "ge"⟩ threshold st (regularFile path name size mode)).1.fileList =
        (if size ≥ threshold then st.fileList ++ [name] else st.fileList)) ∧
    (walkTree (singleTree fourFiles) ⟨"/data", "1K", "eq"⟩ 1024 []).fileList = ["b"] ∧
    (walkTree (singleTree fourFiles) ⟨"/data", "1K", "ge"⟩ 1024 []).fileList = ["b", "c", "d"] := by
  refine ⟨?_, by decide, by decide⟩
  intro p s path name mode size threshold st
  refine ⟨?_, ?_, ?_, ?_, ?_⟩ <;>
    simp only [walkFn_fileList, included, comparisonHolds, regularFile] <;>
    split_ifs <;> simp_all

/-- C3: at an entry that is neither a directory nor a regular file the
callback appends the name of the entry, whatever the operator, the threshold
and the size of the entry; on a directory with a symbolic link and a regular
file of 10 bytes, threshold 1000000 and operator `eq`, the result is the link
alone. -/
theorem C3_irregular_entry_always_included :
    (∀ (myArgs : SizeCmpArgs) (path name mode : String) (size threshold : Int) (st : WalkState),
      (walkFn myArgs threshold st (irregularEntry path name size mode)).1.fileList =
        st.fileList ++ [name]) ∧
    (walkTree (singleTree linkAndFile) ⟨"/data", "1000000B", "eq"⟩ 1000000 []).fileList
      = ["l"] := by
  refine ⟨?_, by decide⟩
  intro myArgs path name mode size threshold st
  simp [walkFn, irregularEntry]

theorem included_gt_of_regular (vs : List Visit) (X : Int)
    (hreg : ∀ v ∈ vs, v.err = none → v.info.IsDir = false → v.info.IsRegular = true) :
    ∀ v ∈ vs, included "gt" X v = (isRegularVisit v && decide (v.info.Size > X)) := by
  intro v hv
  have h := hreg v hv
  cases he : v.err <;> cases hd : v.info.IsDir <;> cases hr : v.info.IsRegular <;>
    simp_all [included, isRegularVisit, comparisonHolds]

theorem included_le_of_regular (vs : List Visit) (X : Int)
    (hreg : ∀ v ∈ vs, v.err = none → v.info.IsDir = false → v.info.IsRegular = true) :
    ∀ v ∈ vs, included "le" X v = (isRegularVisit v && decide (v.info.Size ≤ X)) := by
  intro v hv
  have h := hreg v hv
  cases he : v.err <;> cases hd : v.info.IsDir <;> cases hr : v.info.IsRegular <;>
    simp_all [included, isRegularVisit, comparisonHolds]

/-- Without irregular visits the lists for `gt` and `le` together hold the
names of the regular files that were visited. -/
theorem gt_le_union_of_visits (fs : FileSystem) (p s : String) (X : Int) (log : List String)
    (hreg : ∀ v ∈ fs.walk p, v.err = none → v.info.IsDir = false → v.info.IsRegular = true) :
    ∀ x, (x ∈ (walkTree fs ⟨p, s, "gt"⟩ X log).fileList ∨
        x ∈ (walkTree fs ⟨p, s, "le"⟩ X log).fileList) ↔ x ∈ regularNames (fs.walk p) := by
  have hgt := included_gt_of_regular (fs.walk p) X hreg
  have hle := included_le_of_regular (fs.walk p) X hreg
  simp only [walkTree_fileList, regularNames, List.mem_map, List.mem_filter]
  intro x
  constructor
  · rintro (⟨v, ⟨hv, hvi⟩, rfl⟩ | ⟨v, ⟨hv, hvi⟩, rfl⟩)
    · rw [hgt v hv] at hvi
      simp only [Bool.and_eq_true] at hvi
      exact ⟨v, ⟨hv, hvi.1⟩, rfl⟩
    · rw [hle v hv] at hvi
      simp only [Bool.and_eq_true] at hvi
      exact ⟨v, ⟨hv, hvi.1⟩, rfl⟩
  · rintro ⟨v, ⟨hv, hvr⟩, rfl⟩
    by_cases h : v.info.Size > X
    · left
      exact ⟨v, ⟨hv, by rw [hgt v hv]; simp [hvr, h]⟩, rfl⟩
    · right
      exact ⟨v, ⟨hv, by rw [hle v hv]; simp [hvr]; omega⟩, rfl⟩

/-- Without irregular visits, and with distinct names of the visited regular
files, the lists for `gt` and `le` share no name. -/
theorem gt_le_disjoint_of_visits (fs : FileSystem) (p s : String) (X : Int)
    (log : List String)
    (hreg : ∀ v ∈ fs.walk p, v.err = none → v.info.IsDir = false → v.info.IsRegular = true)
    (hnames : (regularNames (fs.walk p)).Nodup) :
    ∀ x, x ∈ (walkTree fs ⟨p, s, "gt"⟩ X log).fileList →
      x ∉ (walkTree fs ⟨p, s, "le"⟩ X log).fileList := by
  have hgt := included_gt_of_regular (fs.walk p) X hreg
  have hle := included_le_of_regular (fs.walk p) X hreg
  have hinj := List.inj_on_of_nodup_map hnames
  simp only [walkTree_fileList, List.mem_map, List.mem_filter] at hinj ⊢
  rintro x ⟨v, ⟨hv, hvi⟩, rfl⟩ ⟨w, ⟨hw, hwi⟩, hname⟩
  rw [hgt v hv] at hvi
  rw [hle w hw] at hwi
  simp only [Bool.and_eq_true, decide_eq_true_eq] at hvi hwi
  have := hinj ⟨hw, hwi.1⟩ ⟨hv, hvi.1⟩ hname
  subst this
  omega

/-- C10: the list that the walk accumulates is the list of the base names
(`info.Name()`, not the path) of the visited entries that satisfy the
inclusion rule, in the order of the visits: it is the visit sequence filtered
by the rule and mapped to the names.  On the directory with files `a`, `b`,
`c`, `d` the result for `ge` at 1024 is `b`, `c`, `d`, not `/data/b`, ... -/
theorem C10_result_is_filtered_names :
    (∀ (fs : FileSystem) (myArgs : SizeCmpArgs) (size : Int) (log : List String),
      (walkTree fs myArgs size log).fileList =
        ((fs.walk myArgs.Path).filter (included myArgs.Operator size)).map
          (fun v => v.info.Name)) ∧
    (walkTree (singleTree fourFiles) ⟨"/data", "1K", "ge"⟩ 1024 []).fileList = ["b", "c", "d"] ∧
    (fourFiles.filter (included "ge" 1024)).map (fun v => v.path) =
      ["/data/b", "/data/c", "/data/d"] :=
  ⟨walkTree_fileList, by decide, by decide⟩

/-! ## Strings -/

theorem ascii_char_cases (P : Char → Prop) (h : ∀ n, n < 128 → P (Char.ofNat n)) (c : Char)
    (hc : c.toNat < 128) : P c := by
  have := h c.toNat hc
  rwa [Char.ofNat_toNat] at this

theorem asciiToUpper_asciiToLower (c : Char) (hc : c.toNat < 128) :
    (asciiToLower c).toNat < 128 ∧ asciiToUpper (asciiToLower c) = asciiToUpper c ∧
      asciiIsSpace (asciiToLower c) = asciiIsSpace c := by
  revert c
  apply ascii_char_cases
  decide

theorem asciiToUpper_facts (c : Char) (hc : c.toNat < 128) :
    (asciiToUpper c).toNat < 128 ∧ asciiToUpper (asciiToUpper c) = asciiToUpper c ∧
      asciiIsSpace (asciiToUpper c) = asciiIsSpace c ∧
      (asciiIsLetter c = false → asciiToUpper c = c) := by
  revert c
  apply ascii_char_cases
  decide

theorem dropWhile_congr_mem {α : Type} (p q : α → Bool) (l : List α)
    (h : ∀ x ∈ l, p x = q x) : l.dropWhile p = l.dropWhile q := by
  induction l with
  | nil => rfl
  | cons a l ih =>
    have ha := h a (List.mem_cons_self a l)
    simp only [List.dropWhile_cons, ha]
    split
    · exact ih (fun x hx => h x (List.mem_cons_of_mem a hx))
    · rfl

theorem mem_of_mem_dropWhile {α : Type} (p : α → Bool) (l : List α) (x : α)
    (h : x ∈ l.dropWhile p) : x ∈ l :=
  (List.dropWhile_sublist p).subset h

theorem mem_of_mem_TrimSpace (R : Runtime) (s : List Char) (c : Char)
    (h : c ∈ TrimSpace R s) : c ∈ s := by
  unfold TrimSpace at h
  rw [List.mem_reverse] at h
  have h1 := mem_of_mem_dropWhile _ _ _ h
  rw [List.mem_reverse] at h1
  exact mem_of_mem_dropWhile _ _ _ h1

theorem TrimSpace_map (R : Runtime) (f : Char → Char) (s : List Char)
    (h : ∀ c ∈ s, IsSpace R (f c) = IsSpace R c) :
    TrimSpace R (s.map f) = (TrimSpace R s).map f := by
  unfold TrimSpace
  have h1 : (s.map f).dropWhile (IsSpace R) = (s.dropWhile (IsSpace R)).map f := by
    rw [List.dropWhile_map]
    congr 1
    exact dropWhile_congr_mem _ _ _ (fun x hx => h x hx)
  rw [h1, ← List.map_reverse, List.dropWhile_map, ← List.map_reverse]
  congr 2
  apply dropWhile_congr_mem
  intro x hx
  rw [List.mem_reverse] at hx
  exact h x (mem_of_mem_dropWhile _ _ _ hx)

theorem TrimSpace_eq_self (R : Runtime) (s : List Char)
    (hhead : ∀ c, s.head? = some c → IsSpace R c = false)
    (hlast : ∀ c, s.getLast? = some c → IsSpace R c = false) :
    TrimSpace R s = s := by
  unfold TrimSpace
  have h1 : s.dropWhile (IsSpace R) = s := by
    cases s with
    | nil => rfl
    | cons a l =>
      have := hhead a rfl
      simp [List.dropWhile_cons, this]
  rw [h1]
  have h2 : s.reverse.dropWhile (IsSpace R) = s.reverse := by
    cases hr : s.reverse with
    | nil => rfl
    | cons a l =>
      have hl : s.getLast? = some a := by
        rw [← List.head?_reverse, hr]
        rfl
      have := hlast a hl
      simp [List.dropWhile_cons, this]
  rw [h2, List.reverse_reverse]

theorem IndexFunc_eq_neg_one (f : Char → Bool) (s : List Char) :
    IndexFunc s f = -1 ↔ ∀ c ∈ s, f c = false := by
  induction s with
  | nil => simp [IndexFunc]
  | cons a l ih =>
    by_cases ha : f a = true
    · simp [IndexFunc, ha]
    · simp only [Bool.not_eq_true] at ha
      simp only [IndexFunc, ha, Bool.false_eq_true, if_false, List.mem_cons, forall_eq_or_imp,
        true_and]
      rw [← ih]
      constructor
      · intro h
        by_contra hne
        simp [hne] at h
        have : (0 : Int) ≤ IndexFunc l f ∨ IndexFunc l f = -1 := by
          clear ih h hne ha
          induction l with
          | nil => right; rfl
          | cons b l ihl =>
            unfold IndexFunc
            split
            · left; omega
            · rcases ihl with h | h
              · left
                simp only
                split <;> omega
              · right
                simp [h]
        omega
      · intro h
        simp [h]

theorem IndexFunc_nonneg (f : Char → Bool) (s : List Char) :
    IndexFunc s f = -1 ∨ 0 ≤ IndexFunc s f := by
  induction s with
  | nil => left; rfl
  | cons b l ihl =>
    unfold IndexFunc
    split
    · right; omega
    · rcases ihl with h | h
      · left
        simp [h]
      · right
        simp only
        split <;> omega

theorem IndexFunc_append (f : Char → Bool) (p : List Char) (u : Char) (r : List Char)
    (hp : ∀ c ∈ p, f c = false) (hu : f u = true) :
    IndexFunc (p ++ u :: r) f = p.length := by
  induction p with
  | nil => simp [IndexFunc, hu]
  | cons a l ih =>
    have ha := hp a (List.mem_cons_self a l)
    have hrec := ih (fun c hc => hp c (List.mem_cons_of_mem a hc))
    have e : IndexFunc (a :: (l ++ u :: r)) f =
        if IndexFunc (l ++ u :: r) f = -1 then -1 else IndexFunc (l ++ u :: r) f + 1 := by
      simp [IndexFunc, ha]
    rw [List.cons_append, e, hrec]
    split
    · omega
    · simp

/-- The split of a normalised string at its first letter. -/
theorem IndexFunc_split (f : Char → Bool) (s : List Char) (h : IndexFunc s f ≠ -1) :
    (∀ c ∈ s.take (IndexFunc s f).toNat, f c = false) ∧
      ∃ u r, s.drop (IndexFunc s f).toNat = u :: r ∧ f u = true := by
  induction s with
  | nil => simp [IndexFunc] at h
  | cons a l ih =>
    by_cases ha : f a = true
    · simp [IndexFunc, ha]
    · simp only [Bool.not_eq_true] at ha
      have hl : IndexFunc l f ≠ -1 := by
        intro hl
        apply h
        simp [IndexFunc, ha, hl]
      have hnn := (IndexFunc_nonneg f l).resolve_left hl
      have hidx : IndexFunc (a :: l) f = IndexFunc l f + 1 := by
        simp [IndexFunc, ha, hl]
      have htn : (IndexFunc l f + 1).toNat = (IndexFunc l f).toNat + 1 := by omega
      rw [hidx, htn]
      obtain ⟨h1, h2⟩ := ih hl
      refine ⟨?_, ?_⟩
      · intro c hc
        simp only [List.take_succ_cons, List.mem_cons] at hc
        rcases hc with rfl | hc
        · exact ha
        · exact h1 c hc
      · simpa using h2

/-! ## The size parser -/

/-- The text that `sizeByte` hands to `ParseFloat` holds no letter. -/
theorem bytesText_has_no_letter (R : Runtime) (s : List Char)
    (h : IndexFunc (normalized R s) (IsLetter R) ≠ -1) :
    ∀ c ∈ bytesText R s, IsLetter R c = false :=
  (IndexFunc_split (IsLetter R) (normalized R s) h).1

theorem sizeByte_eq (R : Runtime) (s : List Char) :
    sizeByte R s =
      if IndexFunc (normalized R s) (IsLetter R) = -1 then (0, none)
      else
        match ParseFloat (bytesText R s) with
        | none => (0, some "size must be a postive integer")
        | some bytes =>
          if bytes.ltZero then (0, some "size must be a postive integer")
          else switchMultiple R bytes (multipleText R s) := rfl

theorem sizeByte_congr (R : Runtime) (a b : List Char)
    (h : normalized R a = normalized R b) : sizeByte R a = sizeByte R b := by
  simp only [sizeByte_eq, bytesText, multipleText, h]

theorem switchMultiple_unknown (R : Runtime) (bytes : F64) (multiple : List Char)
    (h : multiple ∉ unitSpellings) :
    switchMultiple R bytes multiple = (0, some "size must be a positive integer") := by
  simp only [unitSpellings, unitTable, List.map_cons, List.map_nil, List.mem_cons,
    List.mem_singleton, not_or, List.not_mem_nil, or_false] at h
  obtain ⟨h0, h1, h2, h3, h4, h5, h6, h7, h8, h9, h10, h11, h12, h13, h14, h15, h16, h17, h18⟩ := h
  simp only [switchMultiple, h0, h1, h2, h3, h4, h5, h6, h7, h8, h9, h10, h11, h12, h13, h14,
    h15, h16, h17, h18, or_self, if_false]

theorem switchMultiple_known (R : Runtime) (bytes : F64) (u : List Char) (k : Nat)
    (h : (u, k) ∈ unitTable) :
    switchMultiple R bytes u = ((bytes.mul (1024 ^ k)).toInt64 R, none) := by
  have h0 : bytes.mul (1024 ^ 0) = bytes := by
    simp [F64.mul]
  simp only [unitTable, List.mem_cons, List.mem_singleton, Prod.mk.injEq, List.not_mem_nil,
    or_false] at h
  rcases h with h | h | h | h | h | h | h | h | h | h | h | h | h | h | h | h | h | h | h <;>
    obtain ⟨rfl, rfl⟩ := h <;> first | (rw [h0]; rfl) | rfl

/-- C4 as stated fails: U+0345 is no letter, yet `strings.ToUpper` turns it
into the letter U+0399, so that `sizeByte` finds a letter with nothing in
front of it and returns an error. -/
theorem C4_counterexample :
    (∀ c ∈ [Char.ofNat 0x345], IsLetter greekRuntime c = false) ∧
    sizeByte greekRuntime [Char.ofNat 0x345] = (0, some "size must be a postive integer") := by
  decide

/-- C4, amended: on an input that contains no letter, and no character beyond
ASCII whose upper-case form is a letter, `sizeByte` returns 0 and a nil error. -/
theorem C4_no_letter_gives_zero (R : Runtime) (s : List Char)
    (h : ∀ c ∈ s, IsLetter R c = false ∧
      (c.toNat < 128 ∨ IsLetter R (toUpperRune R c) = false)) :
    sizeByte R s = (0, none) := by
  have hn : IndexFunc (normalized R s) (IsLetter R) = -1 := by
    rw [IndexFunc_eq_neg_one]
    intro c hc
    simp only [normalized, ToUpper, List.mem_map] at hc
    obtain ⟨b, hb, rfl⟩ := hc
    obtain ⟨h1, h2⟩ := h b (mem_of_mem_TrimSpace R s b hb)
    rcases h2 with h2 | h2
    · simp only [IsLetter, h2, if_true] at h1
      have := (asciiToUpper_facts b h2).2.2.2 h1
      simp only [toUpperRune, h2, if_true, this, IsLetter, h1]
    · exact h2
  rw [sizeByte_eq, if_pos hn]

/-- Witness of `C4_no_letter_gives_zero`: the inputs `100`, `-5`, `!!`, `0` and
the empty string. -/
theorem C4_no_letter_gives_zero_witness :
    sizeByte asciiRuntime "100".toList = (0, none) ∧
    sizeByte asciiRuntime "-5".toList = (0, none) ∧
    sizeByte asciiRuntime "!!".toList = (0, none) ∧
    sizeByte asciiRuntime "0".toList = (0, none) ∧
    sizeByte asciiRuntime "".toList = (0, none) :=
  ⟨C4_no_letter_gives_zero asciiRuntime "100".toList (by decide),
   C4_no_letter_gives_zero asciiRuntime "-5".toList (by decide),
   C4_no_letter_gives_zero asciiRuntime "!!".toList (by decide),
   C4_no_letter_gives_zero asciiRuntime "0".toList (by decide),
   C4_no_letter_gives_zero asciiRuntime "".toList (by decide)⟩

/-- C6: when the normalised input has a letter and the text before its first
letter is rejected by `ParseFloat` or parses to a number below zero,
`sizeByte` returns 0 and an error. -/
theorem C6_bad_magnitude_is_error (R : Runtime) (s : List Char)
    (hletter : IndexFunc (normalized R s) (IsLetter R) ≠ -1)
    (hbad : ParseFloat (bytesText R s) = none ∨
      ∃ f, ParseFloat (bytesText R s) = some f ∧ f.ltZero = true) :
    sizeByte R s = (0, some "size must be a postive integer") := by
  rw [sizeByte_eq, if_neg hletter]
  rcases hbad with h | ⟨f, h, hf⟩
  · rw [h]
  · rw [h]
    simp [hf]

/-- Witness of `C6_bad_magnitude_is_error`: the inputs `abcMB`, whose numeric
prefix is empty, and `-5MB`, whose numeric prefix parses to minus five. -/
theorem C6_bad_magnitude_is_error_witness :
    sizeByte asciiRuntime "abcMB".toList = (0, some "size must be a postive integer") ∧
    sizeByte asciiRuntime "-5MB".toList = (0, some "size must be a postive integer") :=
  ⟨C6_bad_magnitude_is_error asciiRuntime "abcMB".toList (by decide) (Or.inl (by decide)),
   C6_bad_magnitude_is_error asciiRuntime "-5MB".toList (by decide)
     (Or.inr ⟨⟨true, 5629499534213120, -50⟩, by decide, by decide⟩)⟩

/-- C7: when the normalised input has a letter and the text from its first
letter on is none of the nineteen unit spellings, `sizeByte` returns 0 and an
error. -/
theorem C7_unknown_unit_is_error (R : Runtime) (s : List Char)
    (hletter : IndexFunc (normalized R s) (IsLetter R) ≠ -1)
    (hunit : multipleText R s ∉ unitSpellings) :
    (sizeByte R s).1 = 0 ∧ (sizeByte R s).2 ≠ none := by
  rw [sizeByte_eq, if_neg hletter]
  cases ParseFloat (bytesText R s) with
  | none => simp
  | some f =>
    by_cases hf : f.ltZero = true
    · simp [hf]
    · simp [hf, switchMultiple_unknown R f _ hunit]

/-- Witness of `C7_unknown_unit_is_error`: the inputs `5XB`, `1e3KB` and
`10 M B`. -/
theorem C7_unknown_unit_is_error_witness :
    ((sizeByte asciiRuntime "5XB".toList).1 = 0 ∧ (sizeByte asciiRuntime "5XB".toList).2 ≠ none) ∧
    ((sizeByte asciiRuntime "1e3KB".toList).1 = 0 ∧
      (sizeByte asciiRuntime "1e3KB".toList).2 ≠ none) ∧
    ((sizeByte asciiRuntime "10 M B".toList).1 = 0 ∧
      (sizeByte asciiRuntime "10 M B".toList).2 ≠ none) :=
  ⟨C7_unknown_unit_is_error asciiRuntime "5XB".toList (by decide) (by decide),
   C7_unknown_unit_is_error asciiRuntime "1e3KB".toList (by decide) (by decide),
   C7_unknown_unit_is_error asciiRuntime "10 M B".toList (by decide) (by decide)⟩

theorem normalized_ToLower (R : Runtime) (s : List Char) (hs : ∀ c ∈ s, c.toNat < 128) :
    normalized R (ToLower R s) = normalized R s := by
  unfold normalized ToLower
  rw [TrimSpace_map]
  · unfold ToUpper
    rw [List.map_map]
    apply List.map_congr_left
    intro c hc
    have hc := hs c (mem_of_mem_TrimSpace R s c hc)
    have h := asciiToUpper_asciiToLower c hc
    simp only [Function.comp, toLowerRune, hc, if_true, toUpperRune, h.1, h.2.1]
  · intro c hc
    have hc := hs c hc
    have h := asciiToUpper_asciiToLower c hc
    simp only [toLowerRune, hc, if_true, IsSpace, h.1, h.2.2]

theorem normalized_ToUpper (R : Runtime) (s : List Char) (hs : ∀ c ∈ s, c.toNat < 128) :
    normalized R (ToUpper R s) = normalized R s := by
  unfold normalized
  have e : ToUpper R s = s.map (toUpperRune R) := rfl
  rw [e, TrimSpace_map]
  · unfold ToUpper
    rw [List.map_map]
    apply List.map_congr_left
    intro c hc
    have hc := hs c (mem_of_mem_TrimSpace R s c hc)
    have h := asciiToUpper_facts c hc
    simp only [Function.comp, toUpperRune, hc, if_true, h.1, h.2.1]
  · intro c hc
    have hc := hs c hc
    have h := asciiToUpper_facts c hc
    simp only [toUpperRune, hc, if_true, IsSpace, h.1, h.2.2.1]

/-- C8: on an ASCII input `sizeByte` gives the same value and the same error
for the input, for its lower-cased form and for its upper-cased form; and
`1gb`, `1GB` and `1GIB` all give 1073741824. -/
theorem C8_case_insensitive :
    (∀ (R : Runtime) (s : List Char), (∀ c ∈ s, c.toNat < 128) →
      sizeByte R (ToLower R s) = sizeByte R s ∧ sizeByte R (ToUpper R s) = sizeByte R s) ∧
    sizeByte asciiRuntime "1gb".toList = (1073741824, none) ∧
    sizeByte asciiRuntime "1GB".toList = (1073741824, none) ∧
    sizeByte asciiRuntime "1GIB".toList = (1073741824, none) := by
  refine ⟨?_, by decide, by decide, by decide⟩
  intro R s hs
  exact ⟨sizeByte_congr R _ _ (normalized_ToLower R s hs),
    sizeByte_congr R _ _ (normalized_ToUpper R s hs)⟩

/-- Witness of `C8_case_insensitive`: the ASCII input `1Gb`, whose lower-cased
form is `1gb` and whose upper-cased form is `1GB`. -/
theorem C8_case_insensitive_witness :
    (∀ c ∈ "1Gb".toList, c.toNat < 128) ∧
    ToLower asciiRuntime "1Gb".toList = "1gb".toList ∧
    ToUpper asciiRuntime "1Gb".toList = "1GB".toList ∧
    sizeByte asciiRuntime (ToLower asciiRuntime "1Gb".toList) = sizeByte asciiRuntime "1Gb".toList ∧
    sizeByte asciiRuntime (ToUpper asciiRuntime "1Gb".toList) = sizeByte asciiRuntime "1Gb".toList :=
  ⟨by decide, by decide, by decide, C8_case_insensitive.1 asciiRuntime "1Gb".toList (by decide)⟩

/-! ## Rounding to float64 -/

theorem log2Loop_spec (fuel n : Nat) (hf : n ≤ fuel) (hn : 0 < n) :
    2 ^ log2Loop fuel n ≤ n ∧ n < 2 ^ (log2Loop fuel n + 1) := by
  induction fuel generalizing n with
  | zero => omega
  | succ fuel ih =>
    unfold log2Loop
    split
    · rename_i h2
      have h := ih (n / 2) (by omega) (by omega)
      constructor
      · rw [pow_succ]
        omega
      · rw [pow_succ]
        omega
    · simp
      omega

theorem log2_spec (n : Nat) (hn : 0 < n) : 2 ^ log2 n ≤ n ∧ n < 2 ^ (log2 n + 1) :=
  log2Loop_spec n n le_rfl hn

theorem ilog2_le (n d : Nat) (hn : 0 < n) (hd : 0 < d) :
    (2 : ℚ) ^ ilog2 n d ≤ (n : ℚ) / d := by
  have hdq : (0 : ℚ) < d := by exact_mod_cast hd
  unfold ilog2
  simp only
  split
  · rename_i h
    unfold pow2Le at h
    split at h
    · rename_i hc
      simp only [decide_eq_true_eq] at h
      rw [le_div_iff₀ hdq]
      have e : (2 : ℚ) ^ ((log2 n : Int) - (log2 d : Int)) =
          ((2 ^ ((log2 n : Int) - (log2 d : Int)).toNat : Nat) : ℚ) := by
        conv_lhs => rw [← Int.toNat_of_nonneg hc]
        rw [zpow_natCast]
        push_cast
        rfl
      rw [e, mul_comm]
      exact_mod_cast h
    · rename_i hc
      simp only [decide_eq_true_eq] at h
      have hneg : (0 : Int) ≤ -((log2 n : Int) - (log2 d : Int)) := by omega
      have e : (2 : ℚ) ^ ((log2 n : Int) - (log2 d : Int)) =
          1 / ((2 ^ (-((log2 n : Int) - (log2 d : Int))).toNat : Nat) : ℚ) := by
        have : ((log2 n : Int) - (log2 d : Int)) = -((-((log2 n : Int) - (log2 d : Int))).toNat : Int) := by
          rw [Int.toNat_of_nonneg hneg]
          ring
        conv_lhs => rw [this]
        rw [zpow_neg, zpow_natCast]
        push_cast
        rw [one_div]
      rw [e, div_le_div_iff₀ (by positivity) hdq, one_mul]
      exact_mod_cast h
  · have h1 := (log2_spec n hn).1
    have h2 := (log2_spec d hd).2
    have e : (2 : ℚ) ^ ((log2 n : Int) - (log2 d : Int) - 1) =
        ((2 ^ log2 n : Nat) : ℚ) / ((2 ^ (log2 d + 1) : Nat) : ℚ) := by
      have : ((log2 n : Int) - (log2 d : Int) - 1) = (log2 n : Int) - ((log2 d + 1 : Nat) : Int) := by
        push_cast
        ring
      rw [this, zpow_sub₀ (by norm_num), zpow_natCast, zpow_natCast]
      push_cast
      rfl
    rw [e]
    apply div_le_div₀
    · positivity
    · exact_mod_cast h1
    · exact hdq
    · exact_mod_cast h2.le

theorem roundHalfEven_mul (j q : Nat) (hq : 0 < q) : roundHalfEven (j * q) q = j := by
  unfold roundHalfEven
  simp [Nat.mul_div_cancel _ hq, hq]

/-- The integer part computed by `truncPow2` is the floor of `mant * 2 ^ exp`. -/
theorem truncPow2_eq_floor (m : Nat) (e : Int) :
    truncPow2 m e = ⌊(m : ℚ) * (2 : ℚ) ^ e⌋₊ := by
  unfold truncPow2
  split
  · rename_i h
    have e1 : (m : ℚ) * (2 : ℚ) ^ e = ((m * 2 ^ e.toNat : Nat) : ℚ) := by
      conv_lhs => rw [← Int.toNat_of_nonneg h]
      rw [zpow_natCast]
      push_cast
      rfl
    rw [e1, Nat.floor_natCast]
  · rename_i h
    have hneg : (0 : Int) ≤ -e := by omega
    have e1 : (m : ℚ) * (2 : ℚ) ^ e = (m : ℚ) / ((2 ^ (-e).toNat : Nat) : ℚ) := by
      have : e = -((-e).toNat : Int) := by
        rw [Int.toNat_of_nonneg hneg]
        ring
      conv_lhs => rw [this]
      rw [zpow_neg, zpow_natCast]
      push_cast
      rw [div_eq_mul_inv]
    rw [e1, Nat.floor_div_eq_div]

theorem zpow_two_toNat (e : Int) (h : 0 ≤ e) : (2 : ℚ) ^ e = ((2 ^ e.toNat : Nat) : ℚ) := by
  conv_lhs => rw [← Int.toNat_of_nonneg h]
  rw [zpow_natCast]
  push_cast
  rfl

theorem zpow_two_neg_toNat (e : Int) (h : e ≤ 0) :
    (2 : ℚ) ^ e = (((2 ^ (-e).toNat : Nat) : ℚ))⁻¹ := by
  have hneg : (0 : Int) ≤ -e := by omega
  have : e = -((-e).toNat : Int) := by
    rw [Int.toNat_of_nonneg hneg]
    ring
  conv_lhs => rw [this]
  rw [zpow_neg, zpow_natCast]
  push_cast
  rfl

/-- A number that a `float64` holds exactly is left alone by the rounding. -/
theorem roundF64_exact (N D m0 : Nat) (e0 : Int) (hN : 0 < N) (hD : 0 < D)
    (hm : m0 < 2 ^ 53) (he : -1074 ≤ e0)
    (hrep : (N : ℚ) / D = m0 * (2 : ℚ) ^ e0) (hlt : (N : ℚ) / D < 2 ^ 1024) :
    ∃ m e, roundF64 N D = some (m, e) ∧ (m : ℚ) * (2 : ℚ) ^ e = (N : ℚ) / D := by
  have hDq : (0 : ℚ) < D := by exact_mod_cast hD
  have hL := ilog2_le N D hN hD
  have hpos : (0 : ℚ) < (2 : ℚ) ^ e0 := by positivity
  have hLlt : ilog2 N D < 53 + e0 := by
    have h1 : (2 : ℚ) ^ ilog2 N D < (2 : ℚ) ^ (53 + e0) := by
      calc (2 : ℚ) ^ ilog2 N D ≤ (N : ℚ) / D := hL
        _ = m0 * (2 : ℚ) ^ e0 := hrep
        _ < (2 : ℚ) ^ (53 : ℕ) * (2 : ℚ) ^ e0 := by
            apply mul_lt_mul_of_pos_right _ hpos
            exact_mod_cast hm
        _ = (2 : ℚ) ^ (53 + e0) := by
            rw [zpow_add₀ (by norm_num)]
            norm_num
    exact (zpow_lt_zpow_iff_right₀ (by norm_num)).1 h1
  obtain ⟨e, hedef⟩ : ∃ e, e = max (ilog2 N D - 52) (-1074) := ⟨_, rfl⟩
  have hee0 : e ≤ e0 := by
    rw [hedef]
    exact max_le (by omega) he
  have hj : ((m0 * 2 ^ (e0 - e).toNat : Nat) : ℚ) * (2 : ℚ) ^ e = (N : ℚ) / D := by
    rw [hrep]
    push_cast
    have : ((2 : ℚ) ^ (e0 - e).toNat) = (2 : ℚ) ^ (e0 - e) := by
      rw [zpow_two_toNat (e0 - e) (by omega)]
      push_cast
      rfl
    rw [this, mul_assoc, ← zpow_add₀ (by norm_num)]
    congr 2
    ring
  refine ⟨m0 * 2 ^ (e0 - e).toNat, e, ?_, hj⟩
  have hN0 : N ≠ 0 := by omega
  unfold roundF64
  rw [if_neg hN0]
  simp only
  rw [← hedef]
  by_cases hpe : 0 ≤ e
  · have hNeq : N = (m0 * 2 ^ (e0 - e).toNat) * (D * 2 ^ e.toNat) := by
      have h := hj
      rw [zpow_two_toNat e hpe, eq_div_iff hDq.ne'] at h
      have h2 : ((m0 * 2 ^ (e0 - e).toNat * (D * 2 ^ e.toNat) : Nat) : ℚ) = (N : ℚ) := by
        rw [← h]
        push_cast
        ring
      exact_mod_cast h2.symm
    have hm' : roundHalfEven N (D * 2 ^ e.toNat) = m0 * 2 ^ (e0 - e).toNat := by
      conv_lhs => rw [hNeq]
      exact roundHalfEven_mul _ _ (by positivity)
    rw [if_pos hpe, hm']
    have hno : ¬ (0 ≤ e ∧ 2 ^ 1024 ≤ m0 * 2 ^ (e0 - e).toNat * 2 ^ e.toNat) := by
      rintro ⟨_, hbig⟩
      have h := hj
      rw [zpow_two_toNat e hpe] at h
      have : ((m0 * 2 ^ (e0 - e).toNat * 2 ^ e.toNat : Nat) : ℚ) < 2 ^ 1024 := by
        push_cast
        push_cast at h
        rw [h]
        exact hlt
      have hsmall : m0 * 2 ^ (e0 - e).toNat * 2 ^ e.toNat < 2 ^ 1024 := by exact_mod_cast this
      exact absurd hbig (not_le.mpr hsmall)
    rw [if_neg hno]
  · have hNeq : N * 2 ^ (-e).toNat = (m0 * 2 ^ (e0 - e).toNat) * D := by
      have h := hj
      rw [zpow_two_neg_toNat e (by omega), eq_div_iff hDq.ne'] at h
      have hp : (0 : ℚ) < ((2 ^ (-e).toNat : Nat) : ℚ) := by positivity
      have h2 : ((m0 * 2 ^ (e0 - e).toNat * D : Nat) : ℚ) = ((N * 2 ^ (-e).toNat : Nat) : ℚ) := by
        push_cast
        push_cast at h hp
        rw [← h]
        field_simp
      exact_mod_cast h2.symm
    have hm' : roundHalfEven (N * 2 ^ (-e).toNat) D = m0 * 2 ^ (e0 - e).toNat := by
      rw [hNeq]
      exact roundHalfEven_mul _ _ hD
    rw [if_neg hpe, hm']
    have hno : ¬ (0 ≤ e ∧ 2 ^ 1024 ≤ m0 * 2 ^ (e0 - e).toNat * 2 ^ e.toNat) := fun h => hpe h.1
    rw [if_neg hno]

theorem digitChar_facts : ∀ d : Fin 10,
    digitChar d ≠ '_' ∧ digitChar d ≠ '.' ∧ digitChar d ≠ '-' ∧ digitChar d ≠ '+' ∧
    48 ≤ (digitChar d).toNat ∧ (digitChar d).toNat ≤ 57 ∧ (digitChar d).toNat - 48 = d.val ∧
    (digitChar d).toNat < 128 ∧ asciiIsLetter (digitChar d) = false ∧
    asciiIsSpace (digitChar d) = false ∧ asciiToUpper (digitChar d) = digitChar d := by
  decide

theorem point_facts :
    ('.' : Char) ≠ '_' ∧ ('.' : Char) ≠ '-' ∧ ('.' : Char) ≠ '+' ∧
    ¬ (48 ≤ ('.' : Char).toNat ∧ ('.' : Char).toNat ≤ 57) ∧
    ('.' : Char).toNat < 128 ∧ asciiIsLetter '.' = false ∧
    asciiIsSpace '.' = false ∧ asciiToUpper '.' = '.' := by
  decide

theorem unitTable_facts : ∀ p ∈ unitTable, p.1 ≠ [] ∧ ∀ c ∈ p.1,
    c.toNat < 128 ∧ asciiIsLetter c = true ∧ asciiIsSpace c = false ∧ asciiToUpper c = c := by
  decide

theorem scanMantissa_cons_digit (d : Fin 10) (st : Scan) (cs : List Char) :
    scanMantissa st (digitChar d :: cs) =
      scanMantissa
        { sawdot := st.sawdot
          sawdigits := true
          digits := st.digits * 10 + d.val
          frac := if st.sawdot then st.frac + 1 else st.frac } cs := by
  obtain ⟨h1, h2, -, -, h3, h4, h5, -⟩ := digitChar_facts d
  simp only [scanMantissa, h1, h2, if_false, h3, h4, and_self, if_true, h5]

theorem scanMantissa_cons_point (st : Scan) (cs : List Char) :
    scanMantissa st ('.' :: cs) =
      if st.sawdot then none else scanMantissa { st with sawdot := true } cs := by
  obtain ⟨p1, -, -, p4, -⟩ := point_facts
  simp only [scanMantissa, p1.symm, if_false]
  simp

theorem underscoreLoop_cons_digit (d : Fin 10) (saw : Char) (cs : List Char) :
    underscoreLoop saw (digitChar d :: cs) = underscoreLoop '0' cs := by
  obtain ⟨-, -, -, -, h3, h4, -⟩ := digitChar_facts d
  simp only [underscoreLoop, h3, h4, and_self, if_true]

theorem underscoreLoop_cons_point (saw : Char) (cs : List Char) (h : saw ≠ '_') :
    underscoreLoop saw ('.' :: cs) = underscoreLoop '!' cs := by
  obtain ⟨p1, -, -, p4, -⟩ := point_facts
  simp only [underscoreLoop, p4, if_false, p1, h]

theorem scanMantissa_digits (ds : List (Fin 10)) (st : Scan) (rest : List Char) :
    scanMantissa st (ds.map digitChar ++ rest) =
      scanMantissa
        { sawdot := st.sawdot
          sawdigits := st.sawdigits || !ds.isEmpty
          digits := ds.foldl (fun a d => a * 10 + d.val) st.digits
          frac := if st.sawdot then st.frac + ds.length else st.frac } rest := by
  induction ds generalizing st with
  | nil => simp
  | cons d ds ih =>
    rw [List.map_cons, List.cons_append, scanMantissa_cons_digit, ih]
    cases hs : st.sawdot <;> simp [hs, Nat.add_assoc, Nat.add_comm 1]

theorem underscoreLoop_digits (ds : List (Fin 10)) (saw : Char) (rest : List Char) :
    underscoreLoop saw (ds.map digitChar ++ rest) =
      underscoreLoop (if ds = [] then saw else '0') rest := by
  induction ds generalizing saw with
  | nil => simp
  | cons d ds ih =>
    rw [List.map_cons, List.cons_append, underscoreLoop_cons_digit, ih]
    cases ds <;> simp

theorem decimalText_nil (ip : List (Fin 10)) :
    decimalText ip [] = ip.map digitChar ++ [] := by
  simp [decimalText]

theorem decimalText_cons (ip : List (Fin 10)) (d : Fin 10) (fp : List (Fin 10)) :
    decimalText ip (d :: fp) = ip.map digitChar ++ '.' :: ((d :: fp).map digitChar ++ []) := by
  simp [decimalText]

theorem ParseFloat_decimalText (ip fp : List (Fin 10)) (h : ip ++ fp ≠ []) :
    ParseFloat (decimalText ip fp) =
      (roundF64 (digitsValue (ip ++ fp)) (10 ^ fp.length)).map
        (fun p => ({ neg := false, mant := p.1, exp := p.2 } : F64)) := by
  have hhead : (decimalText ip fp).head? ≠ some '-' ∧ (decimalText ip fp).head? ≠ some '+' := by
    unfold decimalText
    cases ip with
    | nil =>
      cases fp with
      | nil => simp at h
      | cons d fp => simp
    | cons d ip =>
      obtain ⟨-, -, h1, h2, -⟩ := digitChar_facts d
      simp only [List.map_cons, List.cons_append, List.head?_cons, ne_eq, Option.some.injEq]
      exact ⟨h1, h2⟩
  have hscan : scanMantissa ⟨false, false, 0, 0⟩ (decimalText ip fp) =
      some ⟨!fp.isEmpty, true, digitsValue (ip ++ fp), fp.length⟩ := by
    cases fp with
    | nil =>
      have : ip ≠ [] := by simpa using h
      rw [decimalText_nil, scanMantissa_digits]
      cases ip with
      | nil => exact absurd rfl this
      | cons d ip => simp [scanMantissa, digitsValue]
    | cons d fp =>
      rw [decimalText_cons, scanMantissa_digits, scanMantissa_cons_point, scanMantissa_digits]
      simp [scanMantissa, digitsValue, List.foldl_append]
  have hund : underscoreLoop '^' (decimalText ip fp) = true := by
    cases fp with
    | nil =>
      have : ip ≠ [] := by simpa using h
      rw [decimalText_nil, underscoreLoop_digits]
      simp [this, underscoreLoop]
    | cons d fp =>
      have hsaw : (if ip = [] then '^' else '0') ≠ '_' := by
        split <;> decide
      rw [decimalText_cons, underscoreLoop_digits, underscoreLoop_cons_point _ _ hsaw,
        underscoreLoop_digits]
      simp [underscoreLoop]
  unfold ParseFloat
  simp only [hhead.1, hhead.2, or_self, if_false, hscan, hund, decide_False]
  cases roundF64 (digitsValue (ip ++ fp)) (10 ^ fp.length) <;> rfl

theorem mem_decimalText (ip fp : List (Fin 10)) (c : Char) (h : c ∈ decimalText ip fp) :
    c = '.' ∨ ∃ d, c = digitChar d := by
  unfold decimalText at h
  rw [List.mem_append] at h
  rcases h with h | h
  · obtain ⟨d, -, rfl⟩ := List.mem_map.1 h
    exact Or.inr ⟨d, rfl⟩
  · split at h
    · simp at h
    · rcases List.mem_cons.1 h with rfl | h
      · exact Or.inl rfl
      · obtain ⟨d, -, rfl⟩ := List.mem_map.1 h
        exact Or.inr ⟨d, rfl⟩

theorem decimalText_char (ip fp : List (Fin 10)) (c : Char) (h : c ∈ decimalText ip fp) :
    c.toNat < 128 ∧ asciiIsLetter c = false ∧ asciiIsSpace c = false ∧ asciiToUpper c = c := by
  rcases mem_decimalText ip fp c h with rfl | ⟨d, rfl⟩
  · obtain ⟨-, -, -, -, h1, h2, h3, h4⟩ := point_facts
    exact ⟨h1, h2, h3, h4⟩
  · obtain ⟨-, -, -, -, -, -, -, h1, h2, h3, h4⟩ := digitChar_facts d
    exact ⟨h1, h2, h3, h4⟩

theorem normalized_decimalText (R : Runtime) (ip fp : List (Fin 10)) (u : List Char) (k : Nat)
    (hu : (u, k) ∈ unitTable) :
    normalized R (decimalText ip fp ++ u) = decimalText ip fp ++ u := by
  have hall : ∀ c ∈ decimalText ip fp ++ u,
      c.toNat < 128 ∧ asciiIsSpace c = false ∧ asciiToUpper c = c := by
    intro c hc
    rcases List.mem_append.1 hc with hc | hc
    · obtain ⟨h1, -, h3, h4⟩ := decimalText_char ip fp c hc
      exact ⟨h1, h3, h4⟩
    · obtain ⟨h1, -, h3, h4⟩ := (unitTable_facts (u, k) hu).2 c hc
      exact ⟨h1, h3, h4⟩
  have hsp : ∀ c ∈ decimalText ip fp ++ u, IsSpace R c = false := by
    intro c hc
    obtain ⟨h1, h2, -⟩ := hall c hc
    simp only [IsSpace, h1, if_true, h2]
  unfold normalized
  rw [TrimSpace_eq_self]
  · unfold ToUpper
    conv_rhs => rw [← List.map_id (decimalText ip fp ++ u)]
    apply List.map_congr_left
    intro c hc
    obtain ⟨h1, -, h3⟩ := hall c hc
    simp only [toUpperRune, h1, if_true, h3, id]
  · intro c hc
    exact hsp c (List.mem_of_mem_head? hc)
  · intro c hc
    exact hsp c (List.mem_of_mem_getLast? hc)

theorem split_decimalText (R : Runtime) (ip fp : List (Fin 10)) (u : List Char) (k : Nat)
    (hu : (u, k) ∈ unitTable) :
    IndexFunc (normalized R (decimalText ip fp ++ u)) (IsLetter R) ≠ -1 ∧
    bytesText R (decimalText ip fp ++ u) = decimalText ip fp ∧
    multipleText R (decimalText ip fp ++ u) = u := by
  obtain ⟨hne, hchars⟩ := unitTable_facts (u, k) hu
  cases u with
  | nil => exact absurd rfl hne
  | cons u0 r =>
    have hidx : IndexFunc (decimalText ip fp ++ u0 :: r) (IsLetter R) =
        (decimalText ip fp).length := by
      apply IndexFunc_append
      · intro c hc
        obtain ⟨h1, h2, -⟩ := decimalText_char ip fp c hc
        simp only [IsLetter, h1, if_true, h2]
      · obtain ⟨h1, h2, -⟩ := hchars u0 (List.mem_cons_self _ _)
        simp only [IsLetter, h1, if_true, h2]
    unfold bytesText multipleText
    rw [normalized_decimalText R ip fp (u0 :: r) k hu, hidx]
    refine ⟨by omega, ?_, ?_⟩
    · simp
    · simp

/-- C5 as stated fails: 9007199254740993 is `2 ^ 53 + 1`, which no `float64`
holds; `ParseFloat` rounds it to `2 ^ 53`, and `sizeByte` returns
9007199254740992 for `9007199254740993B`, not 9007199254740993. -/
theorem C5_counterexample :
    decimalText [9, 0, 0, 7, 1, 9, 9, 2, 5, 4, 7, 4, 0, 9, 9, 3] [] ++ "B".toList =
      "9007199254740993B".toList ∧
    digitsValue [9, 0, 0, 7, 1, 9, 9, 2, 5, 4, 7, 4, 0, 9, 9, 3] * 1024 ^ 0 < 2 ^ 63 ∧
    sizeByte asciiRuntime "9007199254740993B".toList = (9007199254740992, none) := by
  set_option maxRecDepth 8000 in decide

/-- C5, amended: for each of the nineteen unit spellings, standing for
`1024 ^ k`, and every decimal magnitude `n` that a `float64` holds exactly
(`n = m0 * 2 ^ e0` with `m0 < 2 ^ 53` and `e0 ≥ -1074`) with `n * 1024 ^ k`
below `2 ^ 63`, `sizeByte` applied to the text of `n` followed by the unit
returns the integer part of `n * 1024 ^ k` and a nil error.  Here `n` is
written with the integer digits `ip` and the fraction digits `fp`. -/
theorem C5_exact_magnitude (R : Runtime) (ip fp : List (Fin 10)) (u : List Char) (k m0 : Nat)
    (e0 : Int) (hd : ip ++ fp ≠ []) (hu : (u, k) ∈ unitTable)
    (hm : m0 < 2 ^ 53) (he : -1074 ≤ e0)
    (hrep : (digitsValue (ip ++ fp) : ℚ) / 10 ^ fp.length = m0 * (2 : ℚ) ^ e0)
    (hlt : digitsValue (ip ++ fp) * 1024 ^ k < 2 ^ 63 * 10 ^ fp.length) :
    sizeByte R (decimalText ip fp ++ u) =
      (((digitsValue (ip ++ fp) * 1024 ^ k / 10 ^ fp.length : Nat) : Int), none) := by
  obtain ⟨hidx, hpre, hsuf⟩ := split_decimalText R ip fp u k hu
  rw [sizeByte_eq, if_neg hidx, hpre, hsuf, ParseFloat_decimalText ip fp hd]
  have hD : 0 < 10 ^ fp.length := by positivity
  have hdiv : digitsValue (ip ++ fp) * 1024 ^ k / 10 ^ fp.length < 2 ^ 63 :=
    (Nat.div_lt_iff_lt_mul hD).2 hlt
  rcases Nat.eq_zero_or_pos (digitsValue (ip ++ fp)) with h0 | hpos
  · rw [h0]
    simp only [roundF64, if_true, Option.map_some', F64.ltZero, Bool.false_and,
      Bool.false_eq_true, if_false]
    rw [switchMultiple_known R _ u k hu]
    simp [F64.toInt64, F64.mul, truncPow2]
  · have hq : (digitsValue (ip ++ fp) : ℚ) / ((10 ^ fp.length : Nat) : ℚ) = m0 * (2 : ℚ) ^ e0 := by
      rw [← hrep]
      push_cast
      rfl
    have hDq : (0 : ℚ) < ((10 ^ fp.length : Nat) : ℚ) := by exact_mod_cast hD
    have hqlt : (digitsValue (ip ++ fp) : ℚ) / ((10 ^ fp.length : Nat) : ℚ) < 2 ^ 1024 := by
      rw [div_lt_iff₀ hDq]
      have h1 : digitsValue (ip ++ fp) ≤ digitsValue (ip ++ fp) * 1024 ^ k :=
        Nat.le_mul_of_pos_right _ (by positivity)
      have h2 : digitsValue (ip ++ fp) < 2 ^ 63 * 10 ^ fp.length := lt_of_le_of_lt h1 hlt
      have h3 : (digitsValue (ip ++ fp) : ℚ) < (2 : ℚ) ^ 63 * ((10 ^ fp.length : Nat) : ℚ) := by
        exact_mod_cast h2
      calc (digitsValue (ip ++ fp) : ℚ) < (2 : ℚ) ^ 63 * ((10 ^ fp.length : Nat) : ℚ) := h3
        _ ≤ (2 : ℚ) ^ 1024 * ((10 ^ fp.length : Nat) : ℚ) := by
            apply mul_le_mul_of_nonneg_right _ hDq.le
            exact pow_le_pow_right₀ (by norm_num) (by norm_num)
    obtain ⟨m, e, hround, hval⟩ :=
      roundF64_exact _ _ m0 e0 hpos hD hm he hq hqlt
    rw [hround]
    simp only [Option.map_some', F64.ltZero, Bool.false_and, Bool.false_eq_true, if_false]
    rw [switchMultiple_known R _ u k hu]
    have htr : truncPow2 (m * 1024 ^ k) e =
        digitsValue (ip ++ fp) * 1024 ^ k / 10 ^ fp.length := by
      rw [truncPow2_eq_floor]
      have : ((m * 1024 ^ k : Nat) : ℚ) * (2 : ℚ) ^ e =
          ((digitsValue (ip ++ fp) * 1024 ^ k : Nat) : ℚ) / ((10 ^ fp.length : Nat) : ℚ) := by
        have h1 : ((m * 1024 ^ k : Nat) : ℚ) * (2 : ℚ) ^ e =
            ((m : ℚ) * (2 : ℚ) ^ e) * (1024 : ℚ) ^ k := by
          push_cast
          ring
        rw [h1, hval]
        push_cast
        ring
      rw [this, Nat.floor_div_eq_div]
    simp only [F64.toInt64, F64.mul, htr, hdiv, if_true]

/-- Witness of `C5_exact_magnitude`: the text `2.5KIB`, with `2.5 = 5 * 2 ^ -1`,
gives 2560. -/
theorem C5_exact_magnitude_witness :
    decimalText [2] [5] ++ "KIB".toList = "2.5KIB".toList ∧
    sizeByte asciiRuntime "2.5KIB".toList = (2560, none) :=
  ⟨by decide,
   C5_exact_magnitude asciiRuntime [2] [5] "KIB".toList 1 5 (-1) (by decide) (by decide)
     (by norm_num) (by norm_num)
     (by rw [show digitsValue ([2] ++ [5]) = 25 from by decide]; norm_num)
     (by decide)⟩

/-! ## The call -/

theorem foldl_opValid (op : String) (l : List String) (acc : Bool) :
    l.foldl (fun valid o => if o = op then true else valid) acc = (acc || decide (op ∈ l)) := by
  induction l generalizing acc with
  | nil => simp
  | cons a l ih =>
    rw [List.foldl_cons, ih]
    by_cases h : a = op
    · simp [h]
    · have h' : ¬ op = a := fun e => h e.symm
      simp [h, h']

theorem withDefaults_Path (a : SizeCmpArgs) : (withDefaults a).Path = a.Path := by
  unfold withDefaults
  simp only
  split_ifs <;> rfl

theorem Call_eq (R : Runtime) (fs : FileSystem) (a : SizeCmpArgs) :
    SizeCmpFunction.Call R fs a none =
      if (withDefaults a).Operator ∈ getOperators then
        match fs.Stat (withDefaults a).Path with
        | .error e =>
          (Any.nil, [logLine (withDefaults a).Path (withDefaults a).Size
            (withDefaults a).Operator e])
        | .ok stat =>
          if stat.IsDir then
            match sizeByte R (withDefaults a).Size.toList with
            | (_, some e) =>
              (Any.nil, ["size_cmp(" ++ (withDefaults a).Path ++ "," ++ (withDefaults a).Size
                ++ "," ++ e ++ "): %!s(MISSING)"])
            | (size, none) =>
              (Any.string "foo", (walkTree fs (withDefaults a) size []).log)
          else
            (Any.nil, [logLine (withDefaults a).Path (withDefaults a).Size
              (withDefaults a).Operator "is not a directory"])
      else
        (Any.nil, [logLine (withDefaults a).Path (withDefaults a).Size (withDefaults a).Operator
          ("invalid operator " ++ (withDefaults a).Operator)]) := by
  have h : SizeCmpFunction.Call R fs a none =
      if !(getOperators.foldl
          (fun valid op => if op = (withDefaults a).Operator then true else valid) false) then
        (Any.nil, [logLine (withDefaults a).Path (withDefaults a).Size (withDefaults a).Operator
          ("invalid operator " ++ (withDefaults a).Operator)])
      else
        match fs.Stat (withDefaults a).Path with
        | .error e =>
          (Any.nil, [logLine (withDefaults a).Path (withDefaults a).Size
            (withDefaults a).Operator e])
        | .ok stat =>
          if !stat.IsDir then
            (Any.nil, [logLine (withDefaults a).Path (withDefaults a).Size
              (withDefaults a).Operator "is not a directory"])
          else
            match sizeByte R (withDefaults a).Size.toList with
            | (_, some e) =>
              (Any.nil, ["size_cmp(" ++ (withDefaults a).Path ++ "," ++ (withDefaults a).Size
                ++ "," ++ e ++ "): %!s(MISSING)"])
            | (size, none) =>
              (Any.string "foo", (walkTree fs (withDefaults a) size []).log) := rfl
  rw [h, foldl_opValid]
  by_cases hop : (withDefaults a).Operator ∈ getOperators
  · simp only [hop, decide_True, Bool.false_or, Bool.not_true, Bool.false_eq_true, if_false,
      if_true]
    cases fs.Stat (withDefaults a).Path with
    | error e => rfl
    | ok stat => cases hd : stat.IsDir <;> simp [hd]
  · simp [hop]

theorem callFileList_eq (R : Runtime) (fs : FileSystem) (a : SizeCmpArgs) :
    callFileList R fs a none =
      if (withDefaults a).Operator ∈ getOperators then
        match fs.Stat (withDefaults a).Path with
        | .error _ => none
        | .ok stat =>
          if stat.IsDir then
            match sizeByte R (withDefaults a).Size.toList with
            | (_, some _) => none
            | (size, none) => some (walkTree fs (withDefaults a) size []).fileList
          else none
      else none := by
  have h : callFileList R fs a none =
      if !(getOperators.foldl
          (fun valid op => if op = (withDefaults a).Operator then true else valid) false) then
        none
      else
        match fs.Stat (withDefaults a).Path with
        | .error _ => none
        | .ok stat =>
          if !stat.IsDir then none
          else
            match sizeByte R (withDefaults a).Size.toList with
            | (_, some _) => none
            | (size, none) => some (walkTree fs (withDefaults a) size []).fileList := rfl
  rw [h, foldl_opValid]
  by_cases hop : (withDefaults a).Operator ∈ getOperators
  · simp only [hop, decide_True, Bool.false_or, Bool.not_true, Bool.false_eq_true, if_false,
      if_true]
    cases fs.Stat (withDefaults a).Path with
    | error e => rfl
    | ok stat => cases hd : stat.IsDir <;> simp [hd]
  · simp [hop]

/-- The walk of `Call` is reached exactly when `Call` does not return nil. -/
theorem callFileList_eq_none_iff (R : Runtime) (fs : FileSystem) (a : SizeCmpArgs) :
    callFileList R fs a none = none ↔ (SizeCmpFunction.Call R fs a none).1 = Any.nil := by
  rw [Call_eq, callFileList_eq]
  by_cases hop : (withDefaults a).Operator ∈ getOperators
  swap
  · simp [hop]
  rw [if_pos hop, if_pos hop]
  cases fs.Stat (withDefaults a).Path with
  | error e => simp
  | ok stat =>
    cases hd : stat.IsDir with
    | false => simp [hd]
    | true =>
      rcases hsb : sizeByte R (withDefaults a).Size.toList with ⟨v, _ | e⟩ <;> simp [hd]

theorem sizeByte_nil (R : Runtime) : sizeByte R [] = (0, none) := rfl

theorem sizeByte_zero (R : Runtime) : sizeByte R "0".toList = (0, none) := rfl

theorem Call_congr (R : Runtime) (fs : FileSystem) (a b : SizeCmpArgs)
    (h : withDefaults a = withDefaults b) :
    SizeCmpFunction.Call R fs a none = SizeCmpFunction.Call R fs b none ∧
      callFileList R fs a none = callFileList R fs b none := by
  rw [Call_eq, Call_eq, callFileList_eq, callFileList_eq, h]
  exact ⟨rfl, rfl⟩

theorem included_not_dir (op : String) (t : Int) (v : Visit) (h : included op t v = true) :
    v.err = none ∧ v.info.IsDir = false := by
  unfold included at h
  simp only [Bool.and_eq_true, Option.isNone_iff_eq_none, Bool.not_eq_true'] at h
  exact ⟨h.1.1, h.1.2⟩

theorem Walk_walkFn_eq_foldl (a : SizeCmpArgs) (size : Int) (vs : List Visit) (st : WalkState) :
    Walk (walkFn a size) vs st = (vs.foldl (fun s v => (walkFn a size s v).1) st, none) := by
  induction vs generalizing st with
  | nil => rfl
  | cons v vs ih =>
    have h := walkFn_snd a size st v
    rw [Walk, List.foldl_cons]
    split
    · rename_i st1 heq
      rw [ih, heq]
    · rename_i st1 e heq
      rw [heq] at h
      cases h

theorem dropWhile_append_all {α : Type} (p : α → Bool) (w l : List α)
    (h : ∀ x ∈ w, p x = true) : (w ++ l).dropWhile p = l.dropWhile p := by
  induction w with
  | nil => rfl
  | cons a w ih =>
    have ha := h a (List.mem_cons_self a w)
    rw [List.cons_append, List.dropWhile_cons, if_pos ha]
    exact ih (fun x hx => h x (List.mem_cons_of_mem a hx))

theorem dropWhile_append_left {α : Type} (p : α → Bool) (l t : List α)
    (h : ∃ x ∈ l, p x = false) : (l ++ t).dropWhile p = l.dropWhile p ++ t := by
  induction l with
  | nil => simp at h
  | cons a l ih =>
    by_cases ha : p a = true
    · rw [List.cons_append, List.dropWhile_cons, if_pos ha, List.dropWhile_cons, if_pos ha]
      apply ih
      obtain ⟨x, hx, hpx⟩ := h
      rcases List.mem_cons.1 hx with rfl | hx
      · rw [ha] at hpx
        cases hpx
      · exact ⟨x, hx, hpx⟩
    · rw [List.cons_append, List.dropWhile_cons, if_neg ha, List.dropWhile_cons, if_neg ha]
      rfl

theorem dropWhile_all {α : Type} (p : α → Bool) (l : List α) (h : ∀ x ∈ l, p x = true) :
    l.dropWhile p = [] := by
  have := dropWhile_append_all p l [] h
  simpa using this

theorem TrimSpace_surrounded (R : Runtime) (w1 s w2 : List Char)
    (h1 : ∀ c ∈ w1, IsSpace R c = true) (h2 : ∀ c ∈ w2, IsSpace R c = true) :
    TrimSpace R (w1 ++ s ++ w2) = TrimSpace R s := by
  unfold TrimSpace
  rw [List.append_assoc, dropWhile_append_all _ _ _ h1]
  by_cases hs : ∃ x ∈ s, IsSpace R x = false
  · rw [dropWhile_append_left _ _ _ hs, List.reverse_append,
      dropWhile_append_all _ _ _ (fun x hx => h2 x (List.mem_reverse.1 hx))]
  · have hall : ∀ x ∈ s, IsSpace R x = true := by
      intro x hx
      by_contra hne
      exact hs ⟨x, hx, by simpa using hne⟩
    have hall2 : ∀ x ∈ s ++ w2, IsSpace R x = true := by
      intro x hx
      rcases List.mem_append.1 hx with hx | hx
      · exact hall x hx
      · exact h2 x hx
    rw [dropWhile_all _ _ hall2, dropWhile_all _ _ hall]

/-! ## Claims on the call -/

/-- C11: a directory never contributes a name.  At a visit of a directory
the callback leaves the list alone, and every name in the list of the walk is
the name of a visited entry that is not a directory and was reached without
error. -/
theorem C11_directories_never_listed :
    (∀ (myArgs : SizeCmpArgs) (size : Int) (st : WalkState) (v : Visit),
      v.info.IsDir = true → (walkFn myArgs size st v).1.fileList = st.fileList) ∧
    (∀ (fs : FileSystem) (myArgs : SizeCmpArgs) (size : Int) (log : List String) (x : String),
      x ∈ (walkTree fs myArgs size log).fileList →
        ∃ v ∈ fs.walk myArgs.Path, v.err = none ∧ v.info.IsDir = false ∧ v.info.Name = x) := by
  constructor
  · intro myArgs size st v hv
    rw [walkFn_fileList]
    have : included myArgs.Operator size v = false := by
      simp [included, hv]
    simp [this]
  · intro fs myArgs size log x hx
    rw [walkTree_fileList, List.mem_map] at hx
    obtain ⟨v, hv, rfl⟩ := hx
    rw [List.mem_filter] at hv
    obtain ⟨h1, h2⟩ := included_not_dir _ _ _ hv.2
    exact ⟨v, hv.1, h1, h2, rfl⟩

/-- Witness of `C11_directories_never_listed`: the root `/data` of the
directory with four files leaves the list empty, and the name `b` in the
result for `ge` at 1024 is that of a visited entry that is no directory. -/
theorem C11_directories_never_listed_witness :
    (walkFn ⟨"/data", "1K", "ge"⟩ 1024 ⟨[], []⟩
      (directory "/data" "data" 4096 "drwxr-xr-x")).1.fileList = [] ∧
    ∃ v ∈ (singleTree fourFiles).walk "/data",
      v.err = none ∧ v.info.IsDir = false ∧ v.info.Name = "b" :=
  ⟨C11_directories_never_listed.1 ⟨"/data", "1K", "ge"⟩ 1024 ⟨[], []⟩
      (directory "/data" "data" 4096 "drwxr-xr-x") rfl,
    C11_directories_never_listed.2 (singleTree fourFiles) ⟨"/data", "1K", "ge"⟩ 1024 [] "b"
      (by decide)⟩

/-- C12: when a validation fails, that of the operator (not empty and none of
`eq`, `le`, `ge`, `gt`, `lt`), that of the path (`os.Stat` fails, or the path
is no directory) or that of the size (`sizeByte` returns an error), `Call`
returns nil, the walk is not started, and one line is logged. -/
theorem C12_validation_failure_yields_nil (R : Runtime) (fs : FileSystem)
    (myArgs : SizeCmpArgs)
    (h : (myArgs.Operator ≠ "" ∧ myArgs.Operator ∉ getOperators) ∨
      (∃ e, fs.Stat myArgs.Path = .error e) ∨
      (∃ stat, fs.Stat myArgs.Path = .ok stat ∧ stat.IsDir = false) ∨
      (sizeByte R myArgs.Size.toList).2 ≠ none) :
    (SizeCmpFunction.Call R fs myArgs none).1 = Any.nil ∧
    callFileList R fs myArgs none = none ∧
    (SizeCmpFunction.Call R fs myArgs none).2.length = 1 := by
  rw [Call_eq, callFileList_eq]
  by_cases hop : (withDefaults myArgs).Operator ∈ getOperators
  swap
  · simp [hop]
  rw [if_pos hop, if_pos hop, withDefaults_Path]
  cases hst : fs.Stat myArgs.Path with
  | error e => simp
  | ok stat =>
    cases hd : stat.IsDir with
    | false => simp [hd]
    | true =>
      have hsize : (sizeByte R (withDefaults myArgs).Size.toList).2 ≠ none := by
        rcases h with ⟨h1, h2⟩ | ⟨e, he⟩ | ⟨st, hs, hsd⟩ | h
        · exfalso
          apply h2
          have : (withDefaults myArgs).Operator = myArgs.Operator := by
            unfold withDefaults
            simp only [if_neg h1]
            split_ifs <;> rfl
          rw [← this]
          exact hop
        · rw [hst] at he
          cases he
        · rw [hst] at hs
          cases hs
          rw [hd] at hsd
          cases hsd
        · have hne : myArgs.Size ≠ "" := by
            intro he
            apply h
            rw [he]
            exact congrArg Prod.snd (sizeByte_nil R)
          have : (withDefaults myArgs).Size = myArgs.Size := by
            unfold withDefaults
            simp only
            split_ifs <;> rfl
          rw [this]
          exact h
      rcases hsb : sizeByte R (withDefaults myArgs).Size.toList with ⟨v, _ | e⟩
      · rw [hsb] at hsize
        exact absurd rfl hsize
      · simp [hd]

/-- Witness of `C12_validation_failure_yields_nil`: the operator `bogus`, a
path that does not exist, a path that is a file, and the size `10XB`. -/
theorem C12_validation_failure_yields_nil_witness :
    (SizeCmpFunction.Call asciiRuntime (singleTree fourFiles) ⟨"/data", "1K", "bogus"⟩ none).1
      = Any.nil ∧
    (SizeCmpFunction.Call asciiRuntime noSuchPath ⟨"/nope", "1K", "ge"⟩ none).1 = Any.nil ∧
    (SizeCmpFunction.Call asciiRuntime plainFile ⟨"/data/a", "1K", "ge"⟩ none).1 = Any.nil ∧
    (SizeCmpFunction.Call asciiRuntime (singleTree fourFiles) ⟨"/data", "10XB", "ge"⟩ none).1
      = Any.nil :=
  ⟨(C12_validation_failure_yields_nil asciiRuntime (singleTree fourFiles)
      ⟨"/data", "1K", "bogus"⟩ (Or.inl (by decide))).1,
   (C12_validation_failure_yields_nil asciiRuntime noSuchPath
      ⟨"/nope", "1K", "ge"⟩ (Or.inr (Or.inl ⟨_, rfl⟩))).1,
   (C12_validation_failure_yields_nil asciiRuntime plainFile
      ⟨"/data/a", "1K", "ge"⟩ (Or.inr (Or.inr (Or.inl ⟨_, rfl, rfl⟩)))).1,
   (C12_validation_failure_yields_nil asciiRuntime (singleTree fourFiles)
      ⟨"/data", "10XB", "ge"⟩ (Or.inr (Or.inr (Or.inr (by decide))))).1⟩

/-- C13 as stated fails: the operator is checked before the path.  On a path
that does not exist and the operator `bogus` the line logged is that of the
invalid operator, and `os.Stat` is not reached. -/
theorem C13_counterexample :
    noSuchPath.Stat "/nope" = .error "stat /nope: no such file or directory" ∧
    SizeCmpFunction.Call asciiRuntime noSuchPath ⟨"/nope", "1K", "bogus"⟩ none =
      (Any.nil, ["size_cmp(/nope,1K,bogus): invalid operator bogus"]) :=
  ⟨rfl, by decide⟩

/-- C13, amended: when the operator is empty or one of `eq`, `le`, `ge`, `gt`,
`lt`, then for every size `Call` on a path on which `os.Stat` fails logs the
error of `os.Stat`, on a path that is no directory it logs `is not a
directory`, and in both cases it returns nil. -/
theorem C13_invalid_root (R : Runtime) (fs : FileSystem) (myArgs : SizeCmpArgs)
    (hop : myArgs.Operator = "" ∨ myArgs.Operator ∈ getOperators) :
    (∀ e, fs.Stat myArgs.Path = .error e →
      SizeCmpFunction.Call R fs myArgs none =
        (Any.nil, [logLine myArgs.Path (withDefaults myArgs).Size
          (withDefaults myArgs).Operator e])) ∧
    (∀ stat, fs.Stat myArgs.Path = .ok stat → stat.IsDir = false →
      SizeCmpFunction.Call R fs myArgs none =
        (Any.nil, [logLine myArgs.Path (withDefaults myArgs).Size
          (withDefaults myArgs).Operator "is not a directory"])) := by
  have hv : (withDefaults myArgs).Operator ∈ getOperators := by
    rcases hop with h | h
    · have : (withDefaults myArgs).Operator = "eq" := by
        unfold withDefaults
        simp only [if_pos h]
        split_ifs <;> rfl
      rw [this]
      decide
    · have hne : myArgs.Operator ≠ "" := by
        intro he
        rw [he] at h
        revert h
        decide
      have : (withDefaults myArgs).Operator = myArgs.Operator := by
        unfold withDefaults
        simp only [if_neg hne]
        split_ifs <;> rfl
      rw [this]
      exact h
  constructor
  · intro e he
    rw [Call_eq, if_pos hv, withDefaults_Path, he]
  · intro stat hs hd
    rw [Call_eq, if_pos hv, withDefaults_Path, hs]
    simp [hd]

/-- Witness of `C13_invalid_root`: a path that does not exist with size `junk`
and operator `ge`, and a path that is a file with no size and no operator. -/
theorem C13_invalid_root_witness :
    SizeCmpFunction.Call asciiRuntime noSuchPath ⟨"/nope", "junk", "ge"⟩ none =
      (Any.nil, ["size_cmp(/nope,junk,ge): stat /nope: no such file or directory"]) ∧
    SizeCmpFunction.Call asciiRuntime plainFile ⟨"/data/a", "", ""⟩ none =
      (Any.nil, ["size_cmp(/data/a,0,eq): is not a directory"]) :=
  ⟨(C13_invalid_root asciiRuntime noSuchPath ⟨"/nope", "junk", "ge"⟩
      (Or.inr (by decide))).1 _ rfl,
   (C13_invalid_root asciiRuntime plainFile ⟨"/data/a", "", ""⟩
      (Or.inl rfl)).2 _ rfl rfl⟩

/-- C14: an empty operator behaves as `eq` and an empty size as `0`: the
returned value, the lines logged and the list of the walk are the same, `0`
parses to the threshold 0, and the call with neither is the call with size `0`
and operator `eq`. -/
theorem C14_defaults :
    (∀ (R : Runtime) (fs : FileSystem) (p s : String),
      SizeCmpFunction.Call R fs ⟨p, s, ""⟩ none = SizeCmpFunction.Call R fs ⟨p, s, "eq"⟩ none ∧
      callFileList R fs ⟨p, s, ""⟩ none = callFileList R fs ⟨p, s, "eq"⟩ none) ∧
    (∀ (R : Runtime) (fs : FileSystem) (p o : String),
      SizeCmpFunction.Call R fs ⟨p, "", o⟩ none = SizeCmpFunction.Call R fs ⟨p, "0", o⟩ none ∧
      callFileList R fs ⟨p, "", o⟩ none = callFileList R fs ⟨p, "0", o⟩ none) ∧
    (∀ (R : Runtime) (fs : FileSystem) (p : String),
      SizeCmpFunction.Call R fs ⟨p, "", ""⟩ none = SizeCmpFunction.Call R fs ⟨p, "0", "eq"⟩ none ∧
      callFileList R fs ⟨p, "", ""⟩ none = callFileList R fs ⟨p, "0", "eq"⟩ none) ∧
    (∀ R : Runtime, sizeByte R "0".toList = (0, none)) := by
  refine ⟨?_, ?_, ?_, sizeByte_zero⟩
  · intro R fs p s
    apply Call_congr
    simp [withDefaults]
  · intro R fs p o
    apply Call_congr
    by_cases h : o = "" <;> simp [withDefaults, h]
  · intro R fs p
    apply Call_congr
    simp [withDefaults]

/-- C15: at an entry reported with an error the callback logs one line,
leaves the list alone and returns nil; it returns nil on every input; hence
the walk runs over all the entries, each one handled by the callback in
turn. -/
theorem C15_entry_error_is_skipped :
    (∀ (myArgs : SizeCmpArgs) (size : Int) (st : WalkState) (path : String) (info : FileInfo)
        (e : String),
      walkFn myArgs size st ⟨path, info, some e⟩ =
        ({ fileList := st.fileList
           log := st.log ++ [logLine myArgs.Path myArgs.Size myArgs.Operator e] }, none)) ∧
    (∀ (myArgs : SizeCmpArgs) (size : Int) (st : WalkState) (v : Visit),
      (walkFn myArgs size st v).2 = none) ∧
    (∀ (myArgs : SizeCmpArgs) (size : Int) (vs : List Visit) (st : WalkState),
      Walk (walkFn myArgs size) vs st =
        (vs.foldl (fun s v => (walkFn myArgs size s v).1) st, none)) :=
  ⟨fun _ _ _ _ _ _ => rfl, walkFn_snd, Walk_walkFn_eq_foldl⟩

/-- C16 (the code departs from the claim): without an operator `Call` compares
with `eq`.  On the directory with files of 0, 1024, 2048 and 5000 bytes and
the size `1K`, parsed to 1024, the list of the walk is `b` alone: `c` and `d`,
of 2048 and 5000 bytes, are larger than 1024 and are left out; the value
returned is `foo`. -/
theorem C16_default_operator_is_eq :
    sizeByte asciiRuntime "1K".toList = (1024, none) ∧
    callFileList asciiRuntime (singleTree fourFiles) ⟨"/data", "1K", ""⟩ none = some ["b"] ∧
    (SizeCmpFunction.Call asciiRuntime (singleTree fourFiles) ⟨"/data", "1K", ""⟩ none).1 =
      Any.string "foo" := by
  decide

/-- C17: white space around the input is ignored: with `w1` and `w2` made of
white space only, `sizeByte` returns for `w1 ++ s ++ w2` the value and the
error that it returns for `s`. -/
theorem C17_surrounding_space_ignored (R : Runtime) (w1 s w2 : List Char)
    (h1 : ∀ c ∈ w1, IsSpace R c = true) (h2 : ∀ c ∈ w2, IsSpace R c = true) :
    sizeByte R (w1 ++ s ++ w2) = sizeByte R s := by
  apply sizeByte_congr
  unfold normalized
  rw [TrimSpace_surrounded R w1 s w2 h1 h2]

/-- Witness of `C17_surrounding_space_ignored`: `1kb` between a space and a
tab followed by a line feed. -/
theorem C17_surrounding_space_ignored_witness :
    sizeByte asciiRuntime (" ".toList ++ "1kb".toList ++ [Char.ofNat 9, Char.ofNat 10]) =
      sizeByte asciiRuntime "1kb".toList ∧
    sizeByte asciiRuntime "1kb".toList = (1024, none) :=
  ⟨C17_surrounding_space_ignored asciiRuntime " ".toList "1kb".toList [Char.ofNat 9, Char.ofNat 10]
      (by decide) (by decide), by decide⟩

/-- C19: for thresholds `t1 ≤ t2` and one sequence of visits, the list for
`ge` and the list for `gt` at `t2` are sublists of those at `t1`, and the list
for `le` and the list for `lt` at `t1` are sublists of those at `t2`. -/
theorem C19_monotone_in_threshold (fs : FileSystem) (p s : String) (t1 t2 : Int)
    (log : List String) (h : t1 ≤ t2) :
    List.Sublist (walkTree fs ⟨p, s, "ge"⟩ t2 log).fileList
      (walkTree fs ⟨p, s, "ge"⟩ t1 log).fileList ∧
    List.Sublist (walkTree fs ⟨p, s, "gt"⟩ t2 log).fileList
      (walkTree fs ⟨p, s, "gt"⟩ t1 log).fileList ∧
    List.Sublist (walkTree fs ⟨p, s, "le"⟩ t1 log).fileList
      (walkTree fs ⟨p, s, "le"⟩ t2 log).fileList ∧
    List.Sublist (walkTree fs ⟨p, s, "lt"⟩ t1 log).fileList
      (walkTree fs ⟨p, s, "lt"⟩ t2 log).fileList := by
  simp only [walkTree_fileList]
  refine ⟨?_, ?_, ?_, ?_⟩ <;>
    apply List.Sublist.map <;>
    apply List.monotone_filter_right <;>
    intro v hv <;>
    simp only [included, comparisonHolds, Bool.and_eq_true, Bool.or_eq_true,
      decide_eq_true_eq] at hv ⊢ <;>
    refine ⟨hv.1, ?_⟩ <;>
    rcases hv.2 with h2 | h2
  all_goals first
    | exact Or.inl h2
    | (right
       simp at h2 ⊢
       omega)

/-- Witness of `C19_monotone_in_threshold`: the directory with four files at
the thresholds 1024 and 2048. -/
theorem C19_monotone_in_threshold_witness :
    List.Sublist (walkTree (singleTree fourFiles) ⟨"/data", "x", "ge"⟩ 2048 []).fileList
      (walkTree (singleTree fourFiles) ⟨"/data", "x", "ge"⟩ 1024 []).fileList ∧
    (walkTree (singleTree fourFiles) ⟨"/data", "x", "le"⟩ 1024 []).fileList = ["a", "b"] ∧
    (walkTree (singleTree fourFiles) ⟨"/data", "x", "le"⟩ 2048 []).fileList = ["a", "b", "c"] :=
  ⟨(C19_monotone_in_threshold (singleTree fourFiles) "/data" "x" 1024 2048 [] (by decide)).1,
    by decide, by decide⟩

/-- C18: `sizeByte` does not check the range of the product.  For `8E` the
product is `8 * 1024 ^ 6 = 2 ^ 63`, one more than the largest `int64`; the
error returned is nil, and the value is whatever the conversion of an
out-of-range float gives on the platform (the least `int64` on amd64). -/
theorem C18_no_range_check :
    (∀ R : Runtime, sizeByte R "8E".toList =
      (R.int64OutOfRange (4503599627370496 * EXABYTE) (-49), none)) ∧
    sizeByte asciiRuntime "8E".toList = (-9223372036854775808, none) ∧
    8 * 1024 ^ 6 = 2 ^ 63 ∧ 2 ^ 63 - 1 < 8 * 1024 ^ 6 := by
  refine ⟨?_, by decide, by decide, by decide⟩
  intro R
  have htext : "8E".toList = decimalText [8] [] ++ "E".toList := by decide
  have hu : ("E".toList, 6) ∈ unitTable := by decide
  obtain ⟨hidx, hpre, hsuf⟩ := split_decimalText R [8] [] "E".toList 6 hu
  have hround : roundF64 (digitsValue ([8] ++ [])) (10 ^ ([] : List (Fin 10)).length) =
      some (4503599627370496, -49) := by decide
  rw [htext, sizeByte_eq, if_neg hidx, hpre, hsuf, ParseFloat_decimalText [8] [] (by decide),
    hround]
  simp only [Option.map_some', F64.ltZero, Bool.false_and, Bool.false_eq_true, if_false]
  rw [switchMultiple_known R _ _ 6 hu]
  have hE : EXABYTE = 1024 ^ 6 := by decide
  have hbig : ¬ truncPow2 (4503599627370496 * 1024 ^ 6) (-49) < 2 ^ 63 := by decide
  simp only [F64.toInt64, F64.mul, hbig, if_false, hE]

/-! ## Trees -/

theorem treeVisits_of_readable (t : Tree) (h : treeReadable t = true) :
    treeVisits t = (treeNodes t).map Node.visit := by
  induction t with
  | nil => rfl
  | entry node below next ihb ihn =>
    simp only [treeReadable, treeNodes, List.cons_append, List.all_cons, List.all_append,
      Bool.and_eq_true, Option.isNone_iff_eq_none] at h
    obtain ⟨⟨hl, hr⟩, hb, hn⟩ := h
    have hn' := ihn (by simpa [treeReadable] using hn)
    cases hd : node.info.IsDir with
    | false =>
      simp [treeVisits, treeNodes, hl, hd, hn', Node.visit]
    | true =>
      rw [hd] at hb
      have hb' := ihb (by simpa [treeReadable] using hb)
      simp [treeVisits, treeNodes, hl, hr, hd, hn', hb', Node.visit]

theorem treeVisits_ok_sublist (t : Tree) :
    List.Sublist ((treeVisits t).filter (fun v => v.err.isNone))
      ((treeNodes t).map Node.visit) := by
  induction t with
  | nil => simp [treeVisits, treeNodes]
  | entry node below next ihb ihn =>
    simp only [treeVisits, treeNodes, List.filter_append, List.cons_append, List.map_cons,
      List.map_append]
    have hskip : List.Sublist (List.filter (fun v => v.err.isNone) (treeVisits next))
        (node.visit :: (List.map Node.visit (if node.info.IsDir = true then treeNodes below
          else []) ++ List.map Node.visit (treeNodes next))) :=
      List.Sublist.cons _ (List.Sublist.trans ihn (List.sublist_append_right _ _))
    cases hl : node.lstatErr with
    | some e => simpa using hskip
    | none =>
      cases hd : node.info.IsDir with
      | false =>
        simp only [Bool.not_false, if_true, List.filter_cons, Option.isNone_none,
          List.filter_nil, List.cons_append, List.nil_append, Bool.false_eq_true, if_false,
          List.map_nil]
        exact List.Sublist.cons₂ _ ihn
      | true =>
        cases hr : node.readErr with
        | some e =>
          rw [hd] at hskip
          simpa using hskip
        | none =>
          simp only [Bool.not_true, Bool.false_eq_true, if_false, List.filter_cons,
            Option.isNone_none, if_true, List.cons_append]
          exact List.Sublist.cons₂ _ (List.Sublist.append ihb ihn)

theorem treeVisits_regular_of_noIrregular (t : Tree) (h : treeNoIrregular t = true) :
    ∀ v ∈ treeVisits t, v.err = none → v.info.IsDir = false → v.info.IsRegular = true := by
  intro v hv he hd
  have hmem : v ∈ (treeVisits t).filter (fun v => v.err.isNone) := by
    rw [List.mem_filter]
    exact ⟨hv, by simp [he]⟩
  have hsub := (treeVisits_ok_sublist t).subset hmem
  obtain ⟨n, hn, rfl⟩ := List.mem_map.1 hsub
  simp only [treeNoIrregular, List.all_eq_true, Bool.or_eq_true] at h
  rcases h n hn with h1 | h1
  · simp only [Node.visit] at hd
    rw [hd] at h1
    cases h1
  · exact h1

theorem regularNames_eq_filter (vs : List Visit) :
    regularNames vs =
      ((vs.filter (fun v => v.err.isNone)).filter
        (fun v => !v.info.IsDir && v.info.IsRegular)).map (fun v => v.info.Name) := by
  unfold regularNames
  rw [List.filter_filter]
  congr 1
  apply List.filter_congr
  intro v _
  simp [isRegularVisit, Bool.and_comm, Bool.and_assoc]

theorem filter_map_visit (ns : List Node) :
    List.map (fun v => v.info.Name)
        (List.filter (fun v => !v.info.IsDir && v.info.IsRegular) (List.map Node.visit ns)) =
      (ns.filter (fun n => !n.info.IsDir && n.info.IsRegular)).map (fun n => n.info.Name) := by
  rw [List.filter_map, List.map_map]
  rfl

theorem regularNames_map_visit (ns : List Node) :
    regularNames (ns.map Node.visit) =
      (ns.filter (fun n => !n.info.IsDir && n.info.IsRegular)).map (fun n => n.info.Name) := by
  rw [regularNames_eq_filter, ← filter_map_visit]
  congr 2
  apply List.filter_eq_self.2
  intro v hv
  obtain ⟨n, _, rfl⟩ := List.mem_map.1 hv
  rfl

theorem regularNames_treeVisits_sublist (t : Tree) :
    List.Sublist (regularNames (treeVisits t)) (treeRegularNames t) := by
  have h := ((treeVisits_ok_sublist t).filter
    (fun v => !v.info.IsDir && v.info.IsRegular)).map (fun v => v.info.Name)
  rw [← regularNames_eq_filter, filter_map_visit] at h
  exact h

theorem regularNames_treeVisits_of_readable (t : Tree) (h : treeReadable t = true) :
    regularNames (treeVisits t) = treeRegularNames t := by
  rw [treeVisits_of_readable t h, regularNames_map_visit]
  rfl

/-- The walk of the tree with four files and that of the tree with a link are
the visit sequences `fourFiles` and `linkAndFile`. -/
theorem treeVisits_examples :
    treeVisits fourFilesTree = fourFiles ∧ treeVisits linkTree = linkAndFile := by
  decide

/-- C9 as stated fails, in three ways.  In the tree with a symbolic link `l`,
where every entry can be read and the one regular file has a name of its own,
the lists for `gt` and `le` both hold `l`, which is no regular file.  In the
tree with two regular files `f`, of 0 and of 5000 bytes, every entry is a
directory or a regular file and can be read, and at threshold 1024 both
lists hold `f`.  In the tree with the directory `locked`, whose listing
cannot be read, the regular file `h` in it is in neither list. -/
theorem C9_counterexample :
    (treeReadable linkTree = true ∧ (treeRegularNames linkTree).Nodup ∧
      "l" ∈ (walkTree (singleTree (treeVisits linkTree)) ⟨"/data", "10B", "gt"⟩ 10 []).fileList ∧
      "l" ∈ (walkTree (singleTree (treeVisits linkTree)) ⟨"/data", "10B", "le"⟩ 10 []).fileList ∧
      "l" ∉ treeRegularNames linkTree) ∧
    (treeNoIrregular sameNameTree = true ∧ treeReadable sameNameTree = true ∧
      "f" ∈ (walkTree (singleTree (treeVisits sameNameTree))
        ⟨"/data", "1K", "gt"⟩ 1024 []).fileList ∧
      "f" ∈ (walkTree (singleTree (treeVisits sameNameTree))
        ⟨"/data", "1K", "le"⟩ 1024 []).fileList) ∧
    (treeNoIrregular lockedTree = true ∧ (treeRegularNames lockedTree).Nodup ∧
      "h" ∈ treeRegularNames lockedTree ∧
      "h" ∉ (walkTree (singleTree (treeVisits lockedTree))
        ⟨"/data", "1K", "gt"⟩ 1024 []).fileList ∧
      "h" ∉ (walkTree (singleTree (treeVisits lockedTree))
        ⟨"/data", "1K", "le"⟩ 1024 []).fileList) := by
  decide

/-- C9, amended: in a tree without irregular entry, at every threshold, the
lists of the walk for `gt` and for `le` together hold exactly the names of all
the regular files in the tree when every entry of the tree can be read, and
they have no name in common when the regular files of the tree have pairwise
distinct base names. -/
theorem C9_gt_le_partition (t : Tree) (p s : String) (X : Int) (log : List String)
    (hreg : treeNoIrregular t = true) :
    (treeReadable t = true →
      ∀ x, (x ∈ (walkTree (singleTree (treeVisits t)) ⟨p, s, "gt"⟩ X log).fileList ∨
          x ∈ (walkTree (singleTree (treeVisits t)) ⟨p, s, "le"⟩ X log).fileList) ↔
        x ∈ treeRegularNames t) ∧
    ((treeRegularNames t).Nodup →
      ∀ x, x ∈ (walkTree (singleTree (treeVisits t)) ⟨p, s, "gt"⟩ X log).fileList →
        x ∉ (walkTree (singleTree (treeVisits t)) ⟨p, s, "le"⟩ X log).fileList) := by
  have hv := treeVisits_regular_of_noIrregular t hreg
  constructor
  · intro hread x
    rw [← regularNames_treeVisits_of_readable t hread]
    exact gt_le_union_of_visits (singleTree (treeVisits t)) p s X log hv x
  · intro hnames
    exact gt_le_disjoint_of_visits (singleTree (treeVisits t)) p s X log hv
      ((regularNames_treeVisits_sublist t).nodup hnames)

/-- Witness of `C9_gt_le_partition`: the tree with files of 0, 1024, 2048 and
5000 bytes at threshold 1024, where `gt` gives `c`, `d` and `le` gives `a`,
`b`. -/
theorem C9_gt_le_partition_witness :
    treeNoIrregular fourFilesTree = true ∧ treeReadable fourFilesTree = true ∧
    (treeRegularNames fourFilesTree).Nodup ∧
    treeRegularNames fourFilesTree = ["a", "b", "c", "d"] ∧
    (walkTree (singleTree (treeVisits fourFilesTree)) ⟨"/data", "1K", "gt"⟩ 1024 []).fileList
      = ["c", "d"] ∧
    (walkTree (singleTree (treeVisits fourFilesTree)) ⟨"/data", "1K", "le"⟩ 1024 []).fileList
      = ["a", "b"] ∧
    (∀ x, (x ∈ (walkTree (singleTree (treeVisits fourFilesTree))
          ⟨"/data", "1K", "gt"⟩ 1024 []).fileList ∨
        x ∈ (walkTree (singleTree (treeVisits fourFilesTree))
          ⟨"/data", "1K", "le"⟩ 1024 []).fileList) ↔
      x ∈ treeRegularNames fourFilesTree) ∧
    (∀ x, x ∈ (walkTree (singleTree (treeVisits fourFilesTree))
        ⟨"/data", "1K", "gt"⟩ 1024 []).fileList →
      x ∉ (walkTree (singleTree (treeVisits fourFilesTree))
        ⟨"/data", "1K", "le"⟩ 1024 []).fileList) :=
  ⟨by decide, by decide, by decide, by decide, by decide, by decide,
    (C9_gt_le_partition fourFilesTree "/data" "1K" 1024 [] (by decide)).1 (by decide),
    (C9_gt_le_partition fourFilesTree "/data" "1K" 1024 [] (by decide)).2 (by decide)⟩

end SizeCmp
